import Mathlib

/-!
# tkdoc: the function catalog of a Jsonnet file

A shallow embedding of `main.go`: the walk `funcs` over the desugared Jsonnet
syntax tree, the field locator `field`, and the scope context `Ctx` with
`withLocals` and `withFile`.

Modelling decisions.

* The syntax tree is the one of `go-jsonnet/ast`, restricted to what `funcs`
  and `field` read.  The name of an object field and the index of an index
  expression are nodes, as in `ast`: the source asserts `*ast.LiteralString` on
  them (lines 63, 95, 107) and a node of another type there is a run-time
  panic.  `litFields` builds the fields of an object whose names are all
  literal strings.
* A Go `map[K]V` is an association list read by first match (`mapGet`) and
  written by `mapSet`, which overwrites the entry of a key already present and
  appends a new key at the end.
* `log.Fatalln` ends the process: `Res.fatal` (the text of the message is not
  modelled).  A failed type assertion is a run-time panic: `Res.panic`.
* `funcs` is not structurally recursive (a variable is resolved by walking the
  node found in the context, an import by walking another file), so it carries
  a fuel argument that bounds the depth of the recursion: every nested call
  takes one unit.  `Res.outOfFuel` is the answer of a walk that nests deeper
  than the fuel allows.  A walk that is `outOfFuel` for every fuel never
  returns: the recursion nests without bound, and the Go program dies when its
  stack is exhausted.
-/

namespace Tkdoc

/-- The nodes of `go-jsonnet/ast` that `funcs` and `field` tell apart.  `Other`
stands for every other node type and carries what `%T` prints for it. -/
inductive Node where
  | Local (binds : List (String × Node)) (body : Node)
  | DesugaredObject (fields : List (Node × Node)) (locals : List (String × Node))
  | Function (required : List String) (optional : List String)
  | Import (file : String)
  | Var (id : String)
  | Index (target : Node) (index : Node)
  | LiteralString (value : String)
  | Other (typeName : String)

/-- The values `funcs` returns as `interface{}`: a `Function`, a
`map[string]interface{}`, or the string printed by `fmt.Sprintf("%T", node)`. -/
inductive Value where
  | Function (params : List String)
  | Map (entries : List (String × Value))
  | Str (s : String)

/-- The two calls of `log.Fatalln` in `funcs`. -/
inductive Fatal where
  | unknownVariable
  | importError
  deriving DecidableEq

/-- Outcome of a walk. -/
inductive Res (α : Type) where
  | ok (v : α)
  | fatal (e : Fatal)
  | panic
  | outOfFuel

/-- Outcome of `field`: a node, the `nil` node, or the panic of a failed type
assertion on a field name. -/
inductive Located where
  | node (n : Node)
  | nil
  | panic

/-- Read `m[k]`: the value and the `ok` flag of a Go map lookup. -/
def mapGet {α : Type} : List (String × α) → String → Option α
  | [], _ => none
  | (k', v) :: rest, k => if k' = k then some v else mapGet rest k

/-- Write `m[k] = v`. -/
def mapSet {α : Type} : List (String × α) → String → α → List (String × α)
  | [], k, v => [(k, v)]
  | (k', v') :: rest, k, v =>
    if k' = k then (k, v) :: rest else (k', v') :: mapSet rest k v

/-- The keys of a map. -/
def mapKeys {α : Type} (m : List (String × α)) : List String :=
  m.map Prod.fst

/-- The scope context: the file being walked, the import resolver of the
Jsonnet VM (`ImportAST`, `none` when it reports an error), and the locals in
scope, each bound to its unresolved node. -/
structure Ctx where
  file : String
  vm : String → String → Option (Node × String)
  locals : List (String × Node)

/-- First loop of `withLocals`: every bind is written into a fresh map. -/
def bindsLoop : List (String × Node) → List (String × Node) → List (String × Node)
  | [], locals => locals
  | b :: rest, locals => bindsLoop rest (mapSet locals b.1 b.2)

/-- Second loop of `withLocals`: an entry of the receiver is copied unless its
key is already there. -/
def inheritLoop : List (String × Node) → List (String × Node) → List (String × Node)
  | [], locals => locals
  | kv :: rest, locals =>
    match mapGet locals kv.1 with
    | some _ => inheritLoop rest locals
    | none => inheritLoop rest (mapSet locals kv.1 kv.2)

/-- Lines 121-139. -/
def Ctx.withLocals (c : Ctx) (binds : List (String × Node)) : Ctx :=
  { vm := c.vm
    file := c.file
    locals := inheritLoop c.locals (bindsLoop binds []) }

/-- Lines 141-144. -/
def Ctx.withFile (c : Ctx) (f : String) : Ctx :=
  { c with file := f }

/-- The loop of `field` over the fields of an object (lines 106-110): each
field name is asserted to be a literal string, and the body of the first field
whose name is `id` is returned. -/
def fieldLoop : List (Node × Node) → String → Located
  | [], _ => .nil
  | f :: rest, id =>
    match f.1 with
    | .LiteralString value => if value = id then .node f.2 else fieldLoop rest id
    | _ => .panic

/-- Lines 101-113. -/
def field : Node → String → Located
  | .Local _ body, id => field body id
  | .DesugaredObject fields _, id => fieldLoop fields id
  | _, _ => .nil

/-- The two loops of the `*ast.Function` case: each parameter name is appended. -/
def paramsLoop : List String → List String → List String
  | [], params => params
  | p :: rest, params => paramsLoop rest (params ++ [p])

/-- The loop of the `*ast.DesugaredObject` case (lines 62-65), `walk` being the
recursive call on a field body: the name is asserted to be a literal string
before the body is walked, and the first assertion or walk that does not
return ends everything. -/
def fieldsLoop (walk : Node → Res Value) :
    List (Node × Node) → List (String × Value) → Res (List (String × Value))
  | [], o => .ok o
  | f :: rest, o =>
    match f.1 with
    | .LiteralString name =>
      match walk f.2 with
      | .ok v => fieldsLoop walk rest (mapSet o name v)
      | .fatal e => .fatal e
      | .panic => .panic
      | .outOfFuel => .outOfFuel
    | _ => .panic

/-- Lines 56-99.  Each nested call takes one unit of fuel.  In the `*ast.Index`
case the target is asserted to be a variable, the variable is looked up, the
index is asserted to be a literal string, and `field` is called; a `nil` result
of `field` is passed to `funcs`, which falls through the type switch and
returns what `%T` prints for `nil`.  A literal string, like every node type
the switch does not name, gives what `%T` prints for it. -/
def funcs : Nat → Node → Ctx → Res Value
  | 0, _, _ => .outOfFuel
  | fuel + 1, node, ctx =>
    match node with
    | .Local binds body => funcs fuel body (ctx.withLocals binds)
    | .DesugaredObject fields locals =>
      match fieldsLoop (fun body => funcs fuel body (ctx.withLocals locals)) fields [] with
      | .ok o => .ok (.Map o)
      | .fatal e => .fatal e
      | .panic => .panic
      | .outOfFuel => .outOfFuel
    | .Function required optional =>
      .ok (.Function (paramsLoop optional (paramsLoop required [])))
    | .Import file =>
      match ctx.vm ctx.file file with
      | none => .fatal .importError
      | some (imported, path) => funcs fuel imported (ctx.withFile path)
    | .Var id =>
      match mapGet ctx.locals id with
      | none => .fatal .unknownVariable
      | some v => funcs fuel v ctx
    | .Index target index =>
      match target with
      | .Var parentId =>
        match mapGet ctx.locals parentId with
        | none => .fatal .unknownVariable
        | some p =>
          match index with
          | .LiteralString value =>
            match field p value with
            | .node ref => funcs fuel ref ctx
            | .nil => .ok (.Str "<nil>")
            | .panic => .panic
          | _ => .panic
      | _ => .panic
    | .LiteralString _ => .ok (.Str "*ast.LiteralString")
    | .Other typeName => .ok (.Str typeName)

/-- The context `main` starts from: no locals. -/
def rootCtx (file : String) (vm : String → String → Option (Node × String)) : Ctx :=
  { file := file, vm := vm, locals := [] }

/-- The fields of an object whose names are all literal strings, as
`{ a: ..., "b": ..., ["c"]: ... }` desugars. -/
def litFields (fields : List (String × Node)) : List (Node × Node) :=
  fields.map (fun f => (.LiteralString f.1, f.2))

/-- The node is a literal string: the type assertion `.(*ast.LiteralString)`
succeeds on it. -/
def Node.isLiteralString : Node → Bool
  | .LiteralString _ => true
  | _ => false

/-- The object that `field` reaches in the node, through the bodies of locals,
has literal strings for all its field names. -/
def Node.literalNames : Node → Bool
  | .Local _ body => body.literalNames
  | .DesugaredObject fields _ => fields.all (fun g => g.1.isLiteralString)
  | _ => true

mutual
/-- Nodes on which the walk never reads the context and no assertion fails: no
variable, no index and no import outside the binds of a local and the locals
of an object, and every field name a literal string. -/
def Node.plain : Node → Bool
  | .Local _ body => body.plain
  | .DesugaredObject fields _ => plainFields fields
  | .Function _ _ => true
  | .LiteralString _ => true
  | .Other _ => true
  | .Import _ => false
  | .Var _ => false
  | .Index _ _ => false
/-- Every field name is a literal string and every field body is plain. -/
def plainFields : List (Node × Node) → Bool
  | [] => true
  | (.LiteralString _, body) :: rest => body.plain && plainFields rest
  | _ :: _ => false
end

mutual
/-- Nesting depth of a node through local bodies and field bodies. -/
def Node.depth : Node → Nat
  | .Local _ body => body.depth + 1
  | .DesugaredObject fields _ => depthFields fields + 1
  | .Function _ _ => 1
  | .LiteralString _ => 1
  | .Other _ => 1
  | .Import _ => 1
  | .Var _ => 1
  | .Index _ _ => 1
/-- The largest depth of a field body. -/
def depthFields : List (Node × Node) → Nat
  | [] => 0
  | f :: rest => max f.2.depth (depthFields rest)
end

/-- An importer that knows one file: `lib`, whose root is
`{ fn: function(y) 0 }`, found at `lib.libsonnet`. -/
def libImporter : String → String → Option (Node × String) :=
  fun _ target =>
    if target = "lib" then
      some (.DesugaredObject [(.LiteralString "fn", .Function ["y"] [])] [], "lib.libsonnet")
    else none

/-- A context in which `x` is bound to the variable `y`, and `y` to a function. -/
def outerCtx : Ctx :=
  { file := "main.libsonnet", vm := fun _ _ => none,
    locals := [("x", .Var "y"), ("y", .Function ["outer"] [])] }

/-! ## Maps -/

theorem mapGet_mapSet {α : Type} (m : List (String × α)) (k k' : String) (v : α) :
    mapGet (mapSet m k v) k' = if k = k' then some v else mapGet m k' := by
  induction m with
  | nil => simp [mapSet, mapGet]
  | cons e rest ih =>
    obtain ⟨k0, v0⟩ := e
    by_cases h : k0 = k
    · subst h
      by_cases h' : k0 = k' <;> simp [mapSet, mapGet, h']
    · by_cases h' : k0 = k'
      · subst h'
        have hne : ¬ k = k0 := fun e => h e.symm
        simp [mapSet, mapGet, h, hne]
      · simp [mapSet, mapGet, h, h', ih]

theorem mapGet_mapSet_self {α : Type} (m : List (String × α)) (k : String) (v : α) :
    mapGet (mapSet m k v) k = some v := by
  simp [mapGet_mapSet]

theorem mapGet_mapSet_ne {α : Type} (m : List (String × α)) (k k' : String) (v : α)
    (h : k ≠ k') : mapGet (mapSet m k v) k' = mapGet m k' := by
  simp [mapGet_mapSet, h]

theorem mapGet_eq_none_iff {α : Type} (m : List (String × α)) (k : String) :
    mapGet m k = none ↔ k ∉ mapKeys m := by
  induction m with
  | nil => simp [mapGet, mapKeys]
  | cons e rest ih =>
    obtain ⟨k0, v0⟩ := e
    by_cases h : k0 = k
    · simp [mapGet, mapKeys, h]
    · have hne : ¬ k = k0 := fun e => h e.symm
      simp only [mapKeys] at ih
      simp [mapGet, mapKeys, h, hne, ih]

theorem mapGet_isSome_iff {α : Type} (m : List (String × α)) (k : String) :
    (mapGet m k).isSome = true ↔ k ∈ mapKeys m := by
  cases hg : mapGet m k with
  | none => simpa using (mapGet_eq_none_iff m k).1 hg
  | some v =>
    have : ¬ mapGet m k = none := by simp [hg]
    simpa using (not_congr (mapGet_eq_none_iff m k)).1 this

theorem mapGet_append {α : Type} (m₁ m₂ : List (String × α)) (k : String) :
    mapGet (m₁ ++ m₂) k =
      match mapGet m₁ k with
      | some v => some v
      | none => mapGet m₂ k := by
  induction m₁ with
  | nil => simp [mapGet]
  | cons e rest ih =>
    obtain ⟨k0, v0⟩ := e
    by_cases h : k0 = k
    · simp [mapGet, h]
    · simp [mapGet, h, ih]

theorem mapKeys_mapSet_of_mem {α : Type} (m : List (String × α)) (k : String) (v : α)
    (h : k ∈ mapKeys m) : mapKeys (mapSet m k v) = mapKeys m := by
  induction m with
  | nil => simp [mapKeys] at h
  | cons e rest ih =>
    obtain ⟨k0, v0⟩ := e
    by_cases hk : k0 = k
    · simp [mapSet, mapKeys, hk]
    · have hne : ¬ k = k0 := fun e => hk e.symm
      simp only [mapKeys, List.map_cons, List.mem_cons, hne, false_or] at h
      simp only [mapKeys] at ih
      simp [mapSet, mapKeys, hk, ih h]

theorem mapKeys_mapSet_of_not_mem {α : Type} (m : List (String × α)) (k : String) (v : α)
    (h : k ∉ mapKeys m) : mapKeys (mapSet m k v) = mapKeys m ++ [k] := by
  induction m with
  | nil => simp [mapKeys, mapSet]
  | cons e rest ih =>
    obtain ⟨k0, v0⟩ := e
    simp only [mapKeys, List.map_cons, List.mem_cons, not_or] at h
    have hk : ¬ k0 = k := fun e => h.1 e.symm
    simp only [mapKeys] at ih
    simp [mapSet, mapKeys, hk, ih h.2]

theorem mem_mapKeys_mapSet {α : Type} (m : List (String × α)) (k k' : String) (v : α) :
    k' ∈ mapKeys (mapSet m k v) ↔ k' = k ∨ k' ∈ mapKeys m := by
  by_cases h : k ∈ mapKeys m
  · rw [mapKeys_mapSet_of_mem m k v h]
    constructor
    · exact fun h' => Or.inr h'
    · rintro (rfl | h')
      · exact h
      · exact h'
  · rw [mapKeys_mapSet_of_not_mem m k v h]
    simp [or_comm]

theorem nodup_mapKeys_mapSet {α : Type} (m : List (String × α)) (k : String) (v : α)
    (h : (mapKeys m).Nodup) : (mapKeys (mapSet m k v)).Nodup := by
  by_cases hk : k ∈ mapKeys m
  · rw [mapKeys_mapSet_of_mem m k v hk]
    exact h
  · rw [mapKeys_mapSet_of_not_mem m k v hk]
    exact List.Nodup.append h (List.nodup_singleton k) (by simpa using hk)

/-! ## The scope context -/

theorem mapGet_bindsLoop (binds locals : List (String × Node)) (k : String) :
    mapGet (bindsLoop binds locals) k =
      match mapGet binds.reverse k with
      | some v => some v
      | none => mapGet locals k := by
  induction binds generalizing locals with
  | nil => simp [bindsLoop, mapGet]
  | cons b rest ih =>
    obtain ⟨k0, v0⟩ := b
    simp only [bindsLoop, List.reverse_cons]
    rw [ih, mapGet_append, mapGet_mapSet]
    cases mapGet rest.reverse k with
    | some v => rfl
    | none => by_cases h : k0 = k <;> simp [mapGet, h]

theorem mapGet_inheritLoop (parent locals : List (String × Node)) (k : String) :
    mapGet (inheritLoop parent locals) k =
      match mapGet locals k with
      | some v => some v
      | none => mapGet parent k := by
  induction parent generalizing locals with
  | nil => cases h : mapGet locals k <;> simp [inheritLoop, mapGet, h]
  | cons e rest ih =>
    obtain ⟨k0, v0⟩ := e
    simp only [inheritLoop]
    cases hg : mapGet locals k0 with
    | some w =>
      simp only [ih]
      cases hk : mapGet locals k with
      | some v => rfl
      | none =>
        have hne : ¬ k0 = k := by
          intro e
          rw [e] at hg
          rw [hg] at hk
          cases hk
        simp [mapGet, hne]
    | none =>
      simp only [ih, mapGet_mapSet]
      by_cases h : k0 = k
      · subst h
        simp [hg, mapGet]
      · simp [h, mapGet]

theorem mapGet_withLocals (c : Ctx) (binds : List (String × Node)) (k : String) :
    mapGet (c.withLocals binds).locals k =
      match mapGet binds.reverse k with
      | some v => some v
      | none => mapGet c.locals k := by
  simp only [Ctx.withLocals, mapGet_inheritLoop, mapGet_bindsLoop]
  cases mapGet binds.reverse k <;> simp [mapGet]

theorem mapKeys_reverse {α : Type} (m : List (String × α)) :
    mapKeys m.reverse = (mapKeys m).reverse := by
  simp [mapKeys]

theorem mapGet_reverse_isSome_iff {α : Type} (m : List (String × α)) (k : String) :
    (mapGet m.reverse k).isSome = true ↔ k ∈ mapKeys m := by
  rw [mapGet_isSome_iff, mapKeys_reverse, List.mem_reverse]

/-! ## The parameter loops -/

theorem paramsLoop_eq (ps params : List String) : paramsLoop ps params = params ++ ps := by
  induction ps generalizing params with
  | nil => simp [paramsLoop]
  | cons p rest ih => simp [paramsLoop, ih]

/-! ## Fields with literal names -/

theorem litFields_nil : litFields [] = [] := rfl

theorem litFields_cons (f : String × Node) (rest : List (String × Node)) :
    litFields (f :: rest) = (.LiteralString f.1, f.2) :: litFields rest := rfl

theorem litFields_append (pre post : List (String × Node)) :
    litFields (pre ++ post) = litFields pre ++ litFields post := by
  simp [litFields]

theorem mem_litFields (fields : List (String × Node)) (g : Node × Node) :
    g ∈ litFields fields ↔ ∃ f ∈ fields, g = (.LiteralString f.1, f.2) := by
  simp only [litFields, List.mem_map]
  constructor
  · rintro ⟨f, hf, rfl⟩
    exact ⟨f, hf, rfl⟩
  · rintro ⟨f, hf, rfl⟩
    exact ⟨f, hf, rfl⟩

theorem fieldsLoop_lit_cons (walk : Node → Res Value) (f : String × Node)
    (rest : List (String × Node)) (o : List (String × Value)) :
    fieldsLoop walk (litFields (f :: rest)) o =
      match walk f.2 with
      | .ok v => fieldsLoop walk (litFields rest) (mapSet o f.1 v)
      | .fatal e => .fatal e
      | .panic => .panic
      | .outOfFuel => .outOfFuel := rfl

/-- A loop that runs to its end has met literal names only. -/
theorem fieldsLoop_ok_lit (walk : Node → Res Value) (fields : List (Node × Node))
    (o o' : List (String × Value)) (h : fieldsLoop walk fields o = .ok o') :
    ∃ sf, fields = litFields sf := by
  induction fields generalizing o with
  | nil => exact ⟨[], rfl⟩
  | cons f rest ih =>
    obtain ⟨name, body⟩ := f
    cases name with
    | LiteralString s =>
      simp only [fieldsLoop] at h
      cases hw : walk body with
      | ok v =>
        rw [hw] at h
        obtain ⟨sf, hsf⟩ := ih _ h
        exact ⟨(s, body) :: sf, by rw [litFields_cons, hsf]⟩
      | fatal e => rw [hw] at h; cases h
      | panic => rw [hw] at h; cases h
      | outOfFuel => rw [hw] at h; cases h
    | _ => simp [fieldsLoop] at h

/-! ## Fuel -/

theorem fieldsLoop_congr (walk walk' : Node → Res Value) (fields : List (Node × Node))
    (o : List (String × Value)) (r : Res (List (String × Value)))
    (hw : ∀ f ∈ fields, walk f.2 ≠ .outOfFuel → walk' f.2 = walk f.2)
    (h : fieldsLoop walk fields o = r) (hr : r ≠ .outOfFuel) :
    fieldsLoop walk' fields o = r := by
  induction fields generalizing o with
  | nil => simpa [fieldsLoop] using h
  | cons f rest ih =>
    have hrest : ∀ g ∈ rest, walk g.2 ≠ .outOfFuel → walk' g.2 = walk g.2 :=
      fun g hg => hw g (List.mem_cons_of_mem _ hg)
    have hf := hw f (List.mem_cons_self _ _)
    obtain ⟨name, body⟩ := f
    cases name with
    | LiteralString s =>
      simp only [fieldsLoop] at h ⊢
      cases hwf : walk body with
      | ok v =>
        rw [hwf] at h hf
        rw [hf (by simp)]
        exact ih _ hrest h
      | fatal e =>
        rw [hwf] at h hf
        rw [hf (by simp)]
        exact h
      | panic =>
        rw [hwf] at h hf
        rw [hf (by simp)]
        exact h
      | outOfFuel =>
        rw [hwf] at h
        exact absurd h.symm hr
    | _ => simpa [fieldsLoop] using h

/-- One more unit of fuel does not change an outcome already reached. -/
theorem funcs_succ (fuel : Nat) : ∀ (node : Node) (ctx : Ctx) (r : Res Value),
    funcs fuel node ctx = r → r ≠ .outOfFuel → funcs (fuel + 1) node ctx = r := by
  induction fuel with
  | zero =>
    intro node ctx r h hr
    exact absurd (by simpa [funcs] using h.symm) hr
  | succ n ih =>
    intro node ctx r h hr
    cases node with
    | Local binds body =>
      simp only [funcs] at h ⊢
      exact ih _ _ _ h hr
    | DesugaredObject fields locals =>
      rw [funcs] at h ⊢
      cases hl : fieldsLoop (fun body => funcs n body (ctx.withLocals locals)) fields [] with
      | ok o =>
        rw [fieldsLoop_congr _ (fun body => funcs (n + 1) body (ctx.withLocals locals)) fields [] _
          (fun f _ hne => ih _ _ _ rfl hne) hl (by simp)]
        rw [hl] at h
        exact h
      | fatal e =>
        rw [fieldsLoop_congr _ (fun body => funcs (n + 1) body (ctx.withLocals locals)) fields [] _
          (fun f _ hne => ih _ _ _ rfl hne) hl (by simp)]
        rw [hl] at h
        exact h
      | panic =>
        rw [fieldsLoop_congr _ (fun body => funcs (n + 1) body (ctx.withLocals locals)) fields [] _
          (fun f _ hne => ih _ _ _ rfl hne) hl (by simp)]
        rw [hl] at h
        exact h
      | outOfFuel =>
        rw [hl] at h
        exact absurd h.symm hr
    | Function required optional =>
      simpa [funcs] using h
    | Import file =>
      rw [funcs] at h ⊢
      cases hv : ctx.vm ctx.file file with
      | none => simpa [hv] using h
      | some res =>
        obtain ⟨imported, path⟩ := res
        rw [hv] at h
        exact ih _ _ _ h hr
    | Var id =>
      rw [funcs] at h ⊢
      cases hv : mapGet ctx.locals id with
      | none => simpa [hv] using h
      | some v =>
        rw [hv] at h
        exact ih _ _ _ h hr
    | Index target index =>
      cases target with
      | Var parentId =>
        rw [funcs] at h ⊢
        cases hv : mapGet ctx.locals parentId with
        | none => simpa [hv] using h
        | some p =>
          rw [hv] at h
          cases index with
          | LiteralString value =>
            cases hf : field p value with
            | nil => simpa [hf] using h
            | panic => simpa [hf] using h
            | node ref =>
              simp only [hf] at h ⊢
              exact ih _ _ _ h hr
          | _ => simpa using h
      | _ => simpa [funcs] using h
    | LiteralString value =>
      simpa [funcs] using h
    | Other typeName =>
      simpa [funcs] using h

/-- More fuel does not change an outcome already reached. -/
theorem funcs_mono {n m : Nat} (hnm : n ≤ m) (node : Node) (ctx : Ctx) (r : Res Value)
    (h : funcs n node ctx = r) (hr : r ≠ .outOfFuel) : funcs m node ctx = r := by
  induction hnm with
  | refl => exact h
  | step _ ih => exact funcs_succ _ _ _ _ ih hr

/-- A walk has at most one outcome, whatever the fuel. -/
theorem funcs_unique {n m : Nat} (node : Node) (ctx : Ctx) (r r' : Res Value)
    (h : funcs n node ctx = r) (hr : r ≠ .outOfFuel)
    (h' : funcs m node ctx = r') (hr' : r' ≠ .outOfFuel) : r = r' := by
  have h1 := funcs_mono (Nat.le_max_left n m) node ctx r h hr
  have h2 := funcs_mono (Nat.le_max_right n m) node ctx r' h' hr'
  rw [← h1, ← h2]

/-! ## The loop over the fields of an object -/

theorem mapGet_of_mem_nodup {α : Type} (m : List (String × α)) (k : String) (v : α)
    (hnd : (mapKeys m).Nodup) (hmem : (k, v) ∈ m) : mapGet m k = some v := by
  induction m with
  | nil => cases hmem
  | cons e rest ih =>
    obtain ⟨k0, v0⟩ := e
    simp only [mapKeys, List.map_cons, List.nodup_cons] at hnd
    rcases List.mem_cons.1 hmem with heq | hrest
    · cases heq
      simp [mapGet]
    · have hk : k ∈ rest.map Prod.fst := List.mem_map.2 ⟨(k, v), hrest, rfl⟩
      have hne : ¬ k0 = k := fun e => hnd.1 (e ▸ hk)
      simp only [mapGet, hne, if_false]
      exact ih hnd.2 hrest

theorem fieldsLoop_ok_of_all (walk : Node → Res Value) (fields : List (String × Node))
    (o : List (String × Value)) (h : ∀ f ∈ fields, ∃ v, walk f.2 = .ok v) :
    ∃ o', fieldsLoop walk (litFields fields) o = .ok o' := by
  induction fields generalizing o with
  | nil => exact ⟨o, rfl⟩
  | cons f rest ih =>
    obtain ⟨v, hv⟩ := h f (List.mem_cons_self _ _)
    rw [fieldsLoop_lit_cons]
    simp only [hv]
    exact ih _ (fun g hg => h g (List.mem_cons_of_mem _ hg))

theorem fieldsLoop_lit_all_of_ok (walk : Node → Res Value) (fields : List (String × Node))
    (o o' : List (String × Value)) (h : fieldsLoop walk (litFields fields) o = .ok o') :
    ∀ f ∈ fields, ∃ v, walk f.2 = .ok v := by
  induction fields generalizing o with
  | nil => intro f hf; cases hf
  | cons f rest ih =>
    rw [fieldsLoop_lit_cons] at h
    cases hw : walk f.2 with
    | ok v =>
      rw [hw] at h
      intro g hg
      rcases List.mem_cons.1 hg with rfl | hg'
      · exact ⟨v, hw⟩
      · exact ih _ h g hg'
    | fatal e => rw [hw] at h; cases h
    | panic => rw [hw] at h; cases h
    | outOfFuel => rw [hw] at h; cases h

/-- What the map built by the loop holds under a name: the walk of the last
field of that name, or what the map held before when no field has it. -/
theorem mapGet_fieldsLoop (walk : Node → Res Value) (fields : List (String × Node))
    (o o' : List (String × Value)) (h : fieldsLoop walk (litFields fields) o = .ok o') (k : String) :
    match mapGet fields.reverse k with
    | some body => ∃ v, walk body = .ok v ∧ mapGet o' k = some v
    | none => mapGet o' k = mapGet o k := by
  induction fields generalizing o with
  | nil =>
    simp only [litFields_nil, fieldsLoop, Res.ok.injEq] at h
    simp [mapGet, h]
  | cons f rest ih =>
    obtain ⟨k0, body0⟩ := f
    rw [fieldsLoop_lit_cons] at h
    cases hw : walk body0 with
    | ok v =>
      rw [hw] at h
      have ih' := ih _ h
      simp only [List.reverse_cons, mapGet_append]
      cases hr : mapGet rest.reverse k with
      | some body =>
        rw [hr] at ih'
        exact ih'
      | none =>
        rw [hr] at ih'
        rw [mapGet_mapSet] at ih'
        by_cases hk : k0 = k
        · simp only [hk, if_true] at ih'
          simp only [mapGet, hk, if_true]
          exact ⟨v, hw, ih'⟩
        · simp only [hk, if_false] at ih'
          simp only [mapGet, hk, if_false]
          exact ih'
    | fatal e => rw [hw] at h; cases h
    | panic => rw [hw] at h; cases h
    | outOfFuel => rw [hw] at h; cases h

theorem mem_mapKeys_fieldsLoop (walk : Node → Res Value) (fields : List (String × Node))
    (o o' : List (String × Value)) (h : fieldsLoop walk (litFields fields) o = .ok o') (k : String) :
    k ∈ mapKeys o' ↔ k ∈ mapKeys o ∨ k ∈ mapKeys fields := by
  induction fields generalizing o with
  | nil =>
    simp only [litFields_nil, fieldsLoop, Res.ok.injEq] at h
    simp [mapKeys, h]
  | cons f rest ih =>
    rw [fieldsLoop_lit_cons] at h
    cases hw : walk f.2 with
    | ok v =>
      rw [hw] at h
      rw [ih _ h, mem_mapKeys_mapSet]
      simp only [mapKeys, List.map_cons, List.mem_cons]
      tauto
    | fatal e => rw [hw] at h; cases h
    | panic => rw [hw] at h; cases h
    | outOfFuel => rw [hw] at h; cases h

theorem nodup_mapKeys_fieldsLoop (walk : Node → Res Value) (fields : List (String × Node))
    (o o' : List (String × Value)) (h : fieldsLoop walk (litFields fields) o = .ok o')
    (ho : (mapKeys o).Nodup) : (mapKeys o').Nodup := by
  induction fields generalizing o with
  | nil =>
    simp only [litFields_nil, fieldsLoop, Res.ok.injEq] at h
    rw [← h]
    exact ho
  | cons f rest ih =>
    rw [fieldsLoop_lit_cons] at h
    cases hw : walk f.2 with
    | ok v =>
      rw [hw] at h
      exact ih _ h (nodup_mapKeys_mapSet o f.1 v ho)
    | fatal e => rw [hw] at h; cases h
    | panic => rw [hw] at h; cases h
    | outOfFuel => rw [hw] at h; cases h

theorem mapKeys_fieldsLoop_of_nodup (walk : Node → Res Value) (fields : List (String × Node))
    (o o' : List (String × Value)) (h : fieldsLoop walk (litFields fields) o = .ok o')
    (hnd : (mapKeys fields).Nodup) (hdis : ∀ k ∈ mapKeys fields, k ∉ mapKeys o) :
    mapKeys o' = mapKeys o ++ mapKeys fields := by
  induction fields generalizing o with
  | nil =>
    simp only [litFields_nil, fieldsLoop, Res.ok.injEq] at h
    simp [mapKeys, h]
  | cons f rest ih =>
    rw [fieldsLoop_lit_cons] at h
    cases hw : walk f.2 with
    | ok v =>
      rw [hw] at h
      have hf : f.1 ∉ mapKeys o := hdis f.1 (by simp [mapKeys])
      simp only [mapKeys, List.map_cons, List.nodup_cons] at hnd
      have hdis' : ∀ k ∈ mapKeys rest, k ∉ mapKeys (mapSet o f.1 v) := by
        intro k hk hmem
        rcases (mem_mapKeys_mapSet o f.1 k v).1 hmem with rfl | hko
        · exact hnd.1 hk
        · exact hdis k (by simp only [mapKeys, List.map_cons, List.mem_cons]; exact Or.inr hk) hko
      rw [ih _ h hnd.2 hdis', mapKeys_mapSet_of_not_mem o f.1 v hf]
      simp [mapKeys]
    | fatal e => rw [hw] at h; cases h
    | panic => rw [hw] at h; cases h
    | outOfFuel => rw [hw] at h; cases h

/-- The object case of `funcs`, read backwards: a walk of an object that
returns has run its loop to the end, and returns the map the loop built. -/
theorem funcs_object_ok (fuel : Nat) (fields : List (Node × Node))
    (locals : List (String × Node)) (ctx : Ctx)
    (v : Value) (h : funcs fuel (.DesugaredObject fields locals) ctx = .ok v) :
    ∃ n o, fuel = n + 1 ∧ v = .Map o ∧
      fieldsLoop (fun body => funcs n body (ctx.withLocals locals)) fields [] = .ok o := by
  cases fuel with
  | zero => simp [funcs] at h
  | succ n =>
    rw [funcs] at h
    cases hl : fieldsLoop (fun body => funcs n body (ctx.withLocals locals)) fields [] with
    | ok o =>
      rw [hl] at h
      simp only [Res.ok.injEq] at h
      exact ⟨n, o, rfl, h.symm, hl⟩
    | fatal e => rw [hl] at h; cases h
    | panic => rw [hl] at h; cases h
    | outOfFuel => rw [hl] at h; cases h


/-- A loop that runs to its end has walked every field body to a value. -/
theorem fieldsLoop_all_of_ok (walk : Node → Res Value) (fields : List (Node × Node))
    (o o' : List (String × Value)) (h : fieldsLoop walk fields o = .ok o') :
    ∀ f ∈ fields, ∃ v, walk f.2 = .ok v := by
  obtain ⟨sf, rfl⟩ := fieldsLoop_ok_lit walk fields o o' h
  intro f hf
  obtain ⟨g, hg, rfl⟩ := (mem_litFields sf f).1 hf
  exact fieldsLoop_lit_all_of_ok walk sf o o' h g hg

/-! ## Object literals -/

/-- C1: for every context and every object whose field names are pairwise
distinct, if the walk of every field body under `ctx.withLocals locals` returns
(within `fuel`), then the walk of the object returns a map which holds, under
each field name, the value of the walk of that field body under
`ctx.withLocals locals`: one context for all the fields, in which every
identifier bound by the locals of the object has the node bound there, whatever
`ctx` binds it to. -/
theorem funcs_object_entries (fuel : Nat) (ctx : Ctx) (fields locals : List (String × Node))
    (hnd : (mapKeys fields).Nodup)
    (hok : ∀ f ∈ fields, ∃ v, funcs fuel f.2 (ctx.withLocals locals) = .ok v) :
    ∃ o, funcs (fuel + 1) (.DesugaredObject (litFields fields) locals) ctx = .ok (.Map o) ∧
      (∀ f ∈ fields, ∃ v, mapGet o f.1 = some v ∧
        funcs fuel f.2 (ctx.withLocals locals) = .ok v) ∧
      (∀ k ∈ mapKeys locals,
        mapGet (ctx.withLocals locals).locals k = mapGet locals.reverse k) := by
  obtain ⟨o, ho⟩ := fieldsLoop_ok_of_all
    (fun body => funcs fuel body (ctx.withLocals locals)) fields [] hok
  refine ⟨o, ?_, ?_, ?_⟩
  · rw [funcs, ho]
  · intro f hf
    have hrev : (mapKeys fields.reverse).Nodup := by
      rw [mapKeys_reverse]
      exact List.nodup_reverse.2 hnd
    have hget : mapGet fields.reverse f.1 = some f.2 :=
      mapGet_of_mem_nodup fields.reverse f.1 f.2 hrev (List.mem_reverse.2 hf)
    have h := mapGet_fieldsLoop _ fields [] o ho f.1
    rw [hget] at h
    obtain ⟨v, hv, hg⟩ := h
    exact ⟨v, hg, hv⟩
  · intro k hk
    rw [mapGet_withLocals]
    have hs := (mapGet_reverse_isSome_iff locals k).2 hk
    cases hg : mapGet locals.reverse k with
    | none => rw [hg] at hs; cases hs
    | some v => rfl

/-- C1, at the object `{ local h = function(a) 0, f: h, g: function(b) 0 }`
walked under a context that binds `h` to something else. -/
theorem funcs_object_entries_witness :
    ∃ o, funcs 3 (.DesugaredObject (litFields [("f", .Var "h"), ("g", .Function ["b"] [])])
        [("h", .Function ["a"] [])])
        { file := "main.libsonnet", vm := fun _ _ => none, locals := [("h", .Other "*ast.Self")] }
        = .ok (.Map o) ∧
      (∀ f ∈ [("f", Node.Var "h"), ("g", Node.Function ["b"] [])], ∃ v, mapGet o f.1 = some v ∧
        funcs 2 f.2 (Ctx.withLocals
          { file := "main.libsonnet", vm := fun _ _ => none,
            locals := [("h", .Other "*ast.Self")] } [("h", .Function ["a"] [])]) = .ok v) ∧
      (∀ k ∈ mapKeys [("h", Node.Function ["a"] [])],
        mapGet (Ctx.withLocals
          { file := "main.libsonnet", vm := fun _ _ => none,
            locals := [("h", .Other "*ast.Self")] } [("h", .Function ["a"] [])]).locals k
          = mapGet [("h", Node.Function ["a"] [])].reverse k) :=
  funcs_object_entries 2
    { file := "main.libsonnet", vm := fun _ _ => none, locals := [("h", .Other "*ast.Self")] }
    [("f", .Var "h"), ("g", .Function ["b"] [])] [("h", .Function ["a"] [])]
    (by decide)
    (by
      intro f hf
      simp only [List.mem_cons, List.mem_singleton, List.not_mem_nil, or_false] at hf
      rcases hf with rfl | rfl
      · exact ⟨.Function ["a"], rfl⟩
      · exact ⟨.Function ["b"], rfl⟩)

/-- C2, as stated, fails at `{ ["a"]: function(x) 0, ["a"]: function(y) 0 }`:
two fields, and a map of one entry. -/
theorem funcs_object_duplicate_name :
    funcs 2
        (.DesugaredObject (litFields [("a", .Function ["x"] []), ("a", .Function ["y"] [])]) [])
        (rootCtx "main.libsonnet" (fun _ _ => none)) = .ok (.Map [("a", .Function ["y"])]) ∧
      ([("a", Value.Function ["y"])] : List (String × Value)).length ≠
        ([("a", Node.Function ["x"] []), ("a", Node.Function ["y"] [])] :
          List (String × Node)).length :=
  ⟨rfl, by decide⟩

/-- C2, amended: the walk of an object, when it returns, returns a map whose
names are exactly the field names of the object, each once: as many entries as
there are distinct field names.  When the field names are pairwise distinct the
names of the map are the field names in their order, and the map has one entry
for each field.  (An object whose walk returns has literal strings for field
names: `sf` lists them with the field bodies.) -/
theorem funcs_object_names (fuel : Nat) (ctx : Ctx) (fields : List (Node × Node))
    (locals : List (String × Node))
    (v : Value) (h : funcs fuel (.DesugaredObject fields locals) ctx = .ok v) :
    ∃ sf o, fields = litFields sf ∧ v = .Map o ∧ (mapKeys o).Nodup ∧
      (∀ k, k ∈ mapKeys o ↔ k ∈ mapKeys sf) ∧
      o.length = (mapKeys sf).dedup.length ∧
      ((mapKeys sf).Nodup → mapKeys o = mapKeys sf ∧ o.length = fields.length) := by
  obtain ⟨n, o, -, hv, hl⟩ := funcs_object_ok fuel fields locals ctx v h
  obtain ⟨sf, rfl⟩ := fieldsLoop_ok_lit _ fields [] o hl
  have hnd : (mapKeys o).Nodup := nodup_mapKeys_fieldsLoop _ sf [] o hl (by simp [mapKeys])
  have hmem : ∀ k, k ∈ mapKeys o ↔ k ∈ mapKeys sf := by
    intro k
    rw [mem_mapKeys_fieldsLoop _ sf [] o hl k]
    simp [mapKeys]
  refine ⟨sf, o, rfl, hv, hnd, hmem, ?_, ?_⟩
  · have hperm : (mapKeys o).Perm (mapKeys sf).dedup :=
      (List.perm_ext_iff_of_nodup hnd (List.nodup_dedup _)).2
        (fun k => by rw [hmem k, List.mem_dedup])
    have := hperm.length_eq
    simpa [mapKeys] using this
  · intro hf
    have hk : mapKeys o = mapKeys sf := by
      have := mapKeys_fieldsLoop_of_nodup _ sf [] o hl hf (by simp [mapKeys])
      simpa [mapKeys] using this
    refine ⟨hk, ?_⟩
    have := congrArg List.length hk
    simpa [mapKeys, litFields] using this

/-- C2, amended, at `{ add: function(a, b) 0, nested: { sub: function(x) 0 } }`. -/
theorem funcs_object_names_witness :
    ∃ sf o,
      litFields [("add", Node.Function ["a", "b"] []),
        ("nested", Node.DesugaredObject (litFields [("sub", .Function ["x"] [])]) [])]
        = litFields sf ∧
      Value.Map [("add", .Function ["a", "b"]), ("nested", .Map [("sub", .Function ["x"])])]
        = .Map o ∧
      (mapKeys o).Nodup ∧
      (∀ k, k ∈ mapKeys o ↔ k ∈ mapKeys sf) ∧
      o.length = (mapKeys sf).dedup.length ∧
      ((mapKeys sf).Nodup → mapKeys o = mapKeys sf ∧
        o.length = (litFields [("add", Node.Function ["a", "b"] []),
          ("nested", Node.DesugaredObject (litFields [("sub", .Function ["x"] [])]) [])]).length) :=
  funcs_object_names 3 (rootCtx "main.libsonnet" (fun _ _ => none))
    (litFields [("add", .Function ["a", "b"] []),
      ("nested", .DesugaredObject (litFields [("sub", .Function ["x"] [])]) [])]) [] _ rfl

/-- C3: the walk of `{ add: function(a, b) 0, nested: { sub: function(x) 0 } }`
from the context `main` starts with (no locals, any file name, any importer)
returns, with any fuel from 3 on, the map
`{ add: Function [a, b], nested: { sub: Function [x] } }`. -/
theorem funcs_nested_example (fuel : Nat) (file : String)
    (vm : String → String → Option (Node × String)) :
    funcs (fuel + 3)
      (.DesugaredObject (litFields [("add", .Function ["a", "b"] []),
        ("nested", .DesugaredObject (litFields [("sub", .Function ["x"] [])]) [])]) [])
      (rootCtx file vm)
    = .ok (.Map [("add", .Function ["a", "b"]), ("nested", .Map [("sub", .Function ["x"])])]) :=
  funcs_mono (Nat.le_add_left 3 fuel) _ _ _ rfl (by simp)

/-! ## Imports and index targets -/

/-- C4, as stated, fails: with `lib` importing `{ fn: function(y) 0 }`, no
amount of fuel makes the walk of `{ helper: (import "lib").fn }` return
`{ helper: Function [y] }`. -/
theorem funcs_index_of_import_not_resolved :
    ¬ ∃ fuel, funcs fuel
        (.DesugaredObject
          (litFields [("helper", .Index (.Import "lib") (.LiteralString "fn"))]) [])
        (rootCtx "main.libsonnet" libImporter) = .ok (.Map [("helper", .Function ["y"])]) := by
  rintro ⟨fuel, h⟩
  have hp : funcs 2
      (.DesugaredObject
        (litFields [("helper", .Index (.Import "lib") (.LiteralString "fn"))]) [])
      (rootCtx "main.libsonnet" libImporter) = .panic := rfl
  have := funcs_unique _ _ _ _ h (by simp) hp (by simp)
  cases this

/-- C4, amended: with `lib` importing `{ fn: function(y) 0 }`, the walk of
`{ helper: (import "lib").fn }` from the root context ends in the failed type
assertion on the index target, which is an import and not a variable; the walk
of `{ helper: import "lib" }` returns `{ helper: { fn: Function [y] } }`. -/
theorem funcs_import_example (fuel : Nat) :
    funcs (fuel + 2)
        (.DesugaredObject
          (litFields [("helper", .Index (.Import "lib") (.LiteralString "fn"))]) [])
        (rootCtx "main.libsonnet" libImporter) = .panic ∧
      funcs (fuel + 4) (.DesugaredObject (litFields [("helper", .Import "lib")]) [])
        (rootCtx "main.libsonnet" libImporter)
        = .ok (.Map [("helper", .Map [("fn", .Function ["y"])])]) :=
  ⟨funcs_mono (Nat.le_add_left 2 fuel) _ _ _ rfl (by simp),
    funcs_mono (Nat.le_add_left 4 fuel) _ _ _ rfl (by simp)⟩

/-! ## Totality -/

theorem Node.depth_pos (node : Node) : 0 < node.depth := by
  cases node <;> simp [Node.depth]

theorem plain_of_plainFields (fields : List (Node × Node)) (h : plainFields fields = true) :
    ∃ sf, fields = litFields sf ∧ ∀ f ∈ sf, f.2.plain = true := by
  induction fields with
  | nil => exact ⟨[], rfl, by simp⟩
  | cons g rest ih =>
    obtain ⟨name, body⟩ := g
    cases name with
    | LiteralString s =>
      simp only [plainFields, Bool.and_eq_true] at h
      obtain ⟨sf, hsf, hall⟩ := ih h.2
      refine ⟨(s, body) :: sf, by rw [litFields_cons, hsf], ?_⟩
      intro f hf
      rcases List.mem_cons.1 hf with rfl | hf'
      · exact h.1
      · exact hall f hf'
    | _ => simp [plainFields] at h

theorem depth_le_of_depthFields (fields : List (String × Node)) (n : Nat)
    (h : depthFields (litFields fields) ≤ n) : ∀ f ∈ fields, f.2.depth ≤ n := by
  induction fields with
  | nil => intro f hf; cases hf
  | cons g rest ih =>
    rw [litFields_cons] at h
    simp only [depthFields, max_le_iff] at h
    intro f hf
    rcases List.mem_cons.1 hf with rfl | hf'
    · exact h.1
    · exact ih h.2 f hf'

theorem funcs_plain (fuel : Nat) : ∀ (node : Node) (ctx : Ctx),
    node.plain = true → node.depth ≤ fuel → ∃ v, funcs fuel node ctx = .ok v := by
  induction fuel with
  | zero =>
    intro node ctx _ hd
    exact absurd (Node.depth_pos node) (by omega)
  | succ n ih =>
    intro node ctx hp hd
    cases node with
    | Local binds body =>
      simp only [Node.plain] at hp
      simp only [Node.depth] at hd
      simp only [funcs]
      exact ih _ _ hp (by omega)
    | DesugaredObject fields locals =>
      simp only [Node.plain] at hp
      simp only [Node.depth] at hd
      obtain ⟨sf, rfl, hplain⟩ := plain_of_plainFields fields hp
      have hall : ∀ f ∈ sf, ∃ v, funcs n f.2 (ctx.withLocals locals) = .ok v :=
        fun f hf => ih _ _ (hplain f hf)
          (depth_le_of_depthFields sf n (by omega) f hf)
      obtain ⟨o, ho⟩ := fieldsLoop_ok_of_all
        (fun body => funcs n body (ctx.withLocals locals)) sf [] hall
      exact ⟨.Map o, by rw [funcs, ho]⟩
    | Function required optional => exact ⟨_, by rw [funcs]⟩
    | LiteralString value => exact ⟨_, by rw [funcs]⟩
    | Other typeName => exact ⟨_, by rw [funcs]⟩
    | Import file => simp [Node.plain] at hp
    | Var id => simp [Node.plain] at hp
    | Index target index => simp [Node.plain] at hp

/-- A variable bound to itself is never resolved. -/
theorem funcs_var_self (ctx : Ctx) (x : String) (h : mapGet ctx.locals x = some (.Var x))
    (fuel : Nat) : funcs fuel (.Var x) ctx = .outOfFuel := by
  induction fuel with
  | zero => rfl
  | succ n ih =>
    rw [funcs]
    simp only [h]
    exact ih

/-- The walk of `local x = x; x` nests deeper than any fuel. -/
theorem funcs_local_self (ctx : Ctx) (x : String) (fuel : Nat) :
    funcs fuel (.Local [(x, .Var x)] (.Var x)) ctx = .outOfFuel := by
  cases fuel with
  | zero => rfl
  | succ n =>
    rw [funcs]
    refine funcs_var_self (ctx.withLocals [(x, .Var x)]) x ?_ n
    rw [mapGet_withLocals]
    simp [mapGet]

/-- An index whose target is not a variable ends in the failed assertion. -/
theorem funcs_index_not_var (fuel : Nat) (target index : Node) (ctx : Ctx)
    (h : ∀ id, target ≠ .Var id) : funcs (fuel + 1) (.Index target index) ctx = .panic := by
  cases target with
  | Var id => exact absurd rfl (h id)
  | _ => simp [funcs]

/-- C5, as stated, fails twice.  The walk of `(import "lib").fn`, an index whose
target is not a variable, neither returns a value nor ends in `log.Fatalln`,
whatever the fuel: it ends in the failed type assertion.  The walk of
`local x = x; x` nests deeper than any fuel: it never returns (the program ends
when its stack is exhausted). -/
theorem funcs_not_total :
    (¬ ∃ fuel, (∃ v, funcs fuel (.Index (.Import "lib") (.LiteralString "fn"))
          (rootCtx "main.libsonnet" libImporter) = .ok v) ∨
        (∃ e, funcs fuel (.Index (.Import "lib") (.LiteralString "fn"))
          (rootCtx "main.libsonnet" libImporter) = .fatal e)) ∧
      (∀ fuel, funcs fuel (.Local [("x", .Var "x")] (.Var "x"))
        (rootCtx "main.libsonnet" libImporter) = .outOfFuel) := by
  constructor
  · rintro ⟨fuel, h⟩
    have hp : funcs 1 (.Index (.Import "lib") (.LiteralString "fn"))
        (rootCtx "main.libsonnet" libImporter) = .panic := rfl
    rcases h with ⟨v, h⟩ | ⟨e, h⟩
    · have := funcs_unique _ _ _ _ h (by simp) hp (by simp)
      cases this
    · have := funcs_unique _ _ _ _ h (by simp) hp (by simp)
      cases this
  · intro fuel
    exact funcs_local_self _ "x" fuel

/-- C5, amended: the walk is not total.  Under every context, the walk of an
index whose target is not a variable ends in the failed type assertion, which
is neither of the two calls of `log.Fatalln`; and the walk of `local x = x; x`
nests deeper than any fuel, so it never returns.  A walk has at most one
outcome (a value, one of the two calls of `log.Fatalln`, or a failed type
assertion), whatever the fuel; and on a node made of locals, objects whose
field names are literal strings, functions, literal strings and unmodelled
nodes only (variables, indexes and imports at most inside binds) it returns a
value, under every context, as soon as the fuel reaches the nesting depth of
the node. -/
theorem funcs_outcome_unique_and_plain_total (node : Node) (ctx : Ctx) :
    (∀ target index fuel, (∀ id, target ≠ .Var id) →
        funcs (fuel + 1) (.Index target index) ctx = .panic) ∧
      (∀ x fuel, funcs fuel (.Local [(x, .Var x)] (.Var x)) ctx = .outOfFuel) ∧
      (∀ n m r r', funcs n node ctx = r → r ≠ .outOfFuel →
        funcs m node ctx = r' → r' ≠ .outOfFuel → r = r') ∧
      (node.plain = true → ∀ fuel, node.depth ≤ fuel → ∃ v, funcs fuel node ctx = .ok v) :=
  ⟨fun target index fuel h => funcs_index_not_var fuel target index ctx h,
    fun x fuel => funcs_local_self ctx x fuel,
    fun _ _ r r' h hr h' hr' => funcs_unique node ctx r r' h hr h' hr',
    fun hp fuel hd => funcs_plain fuel node ctx hp hd⟩

/-- C5, amended, at `local t = import "lib"; { f: function(a) 0 }` and at the
index `(import "lib").fn`. -/
theorem funcs_outcome_unique_and_plain_total_witness :
    funcs 1 (.Index (.Import "lib") (.LiteralString "fn"))
        (rootCtx "main.libsonnet" libImporter) = .panic ∧
      (Node.Local [("t", .Import "lib")]
        (.DesugaredObject (litFields [("f", .Function ["a"] [])]) [])).plain = true ∧
      (Node.Local [("t", .Import "lib")]
        (.DesugaredObject (litFields [("f", .Function ["a"] [])]) [])).depth ≤ 3 ∧
      ∃ v, funcs 3
        (.Local [("t", .Import "lib")]
          (.DesugaredObject (litFields [("f", .Function ["a"] [])]) []))
        (rootCtx "main.libsonnet" libImporter) = .ok v :=
  ⟨(funcs_outcome_unique_and_plain_total (.Other "*ast.Self")
      (rootCtx "main.libsonnet" libImporter)).1 (.Import "lib") (.LiteralString "fn") 0
      (by intro id h; cases h),
    by decide, by decide,
    (funcs_outcome_unique_and_plain_total
      (.Local [("t", .Import "lib")]
        (.DesugaredObject (litFields [("f", .Function ["a"] [])]) []))
      (rootCtx "main.libsonnet" libImporter)).2.2.2 (by decide) 3 (by decide)⟩

/-! ## The cases of the walk, one call at a time -/

theorem funcs_local (fuel : Nat) (binds : List (String × Node)) (body : Node) (ctx : Ctx) :
    funcs (fuel + 1) (.Local binds body) ctx = funcs fuel body (ctx.withLocals binds) := by
  rw [funcs]

theorem funcs_var (fuel : Nat) (id : String) (ctx : Ctx) (v : Node)
    (h : mapGet ctx.locals id = some v) :
    funcs (fuel + 1) (.Var id) ctx = funcs fuel v ctx := by
  rw [funcs]
  simp only [h]

theorem funcs_function (fuel : Nat) (required optional : List String) (ctx : Ctx) :
    funcs (fuel + 1) (.Function required optional) ctx
      = .ok (.Function (required ++ optional)) := by
  rw [funcs, paramsLoop_eq, paramsLoop_eq, List.nil_append]

theorem funcs_other (fuel : Nat) (typeName : String) (ctx : Ctx) :
    funcs (fuel + 1) (.Other typeName) ctx = .ok (.Str typeName) := by
  rw [funcs]

/-! ## Extending the context -/

theorem mapGet_split {α : Type} (m : List (String × α)) (k : String) (v : α)
    (h : mapGet m k = some v) :
    ∃ pre post, m = pre ++ (k, v) :: post ∧ k ∉ mapKeys pre := by
  induction m with
  | nil => simp [mapGet] at h
  | cons e rest ih =>
    obtain ⟨k0, v0⟩ := e
    by_cases hk : k0 = k
    · simp only [mapGet, hk, if_true, Option.some.injEq] at h
      exact ⟨[], rest, by simp [hk, h], by simp [mapKeys]⟩
    · simp only [mapGet, hk, if_false] at h
      obtain ⟨pre, post, hm, hpre⟩ := ih h
      refine ⟨(k0, v0) :: pre, post, by simp [hm], ?_⟩
      simp only [mapKeys, List.map_cons, List.mem_cons, not_or]
      exact ⟨fun e => hk e.symm, hpre⟩

/-- The node a key has in the reversed list is the one of its last pair. -/
theorem mapGet_reverse_last {α : Type} (m : List (String × α)) (k : String) (v : α)
    (h : mapGet m.reverse k = some v) :
    ∃ pre post, m = pre ++ (k, v) :: post ∧ k ∉ mapKeys post := by
  obtain ⟨pre, post, hm, hpre⟩ := mapGet_split m.reverse k v h
  refine ⟨post.reverse, pre.reverse, ?_, ?_⟩
  · have := congrArg List.reverse hm
    simpa using this
  · rw [mapKeys_reverse, List.mem_reverse]
    exact hpre

/-- C7: for every context `parent` and every list `newBinds` of binds, in
`parent.withLocals newBinds` an identifier that occurs in `newBinds` is bound to
the node of its last pair there; an identifier that does not occur in
`newBinds` is bound as in `parent` (and unbound when unbound there); the bound
identifiers are those of `newBinds` and those of `parent`; the file and the
Jsonnet VM are those of `parent`. -/
theorem withLocals_bindings (parent : Ctx) (newBinds : List (String × Node)) :
    (∀ k, k ∈ mapKeys newBinds → ∃ pre post v, newBinds = pre ++ (k, v) :: post ∧
        k ∉ mapKeys post ∧ mapGet (parent.withLocals newBinds).locals k = some v) ∧
      (∀ k, k ∉ mapKeys newBinds →
        mapGet (parent.withLocals newBinds).locals k = mapGet parent.locals k) ∧
      (∀ k, k ∈ mapKeys (parent.withLocals newBinds).locals ↔
        k ∈ mapKeys newBinds ∨ k ∈ mapKeys parent.locals) ∧
      (parent.withLocals newBinds).file = parent.file ∧
      (parent.withLocals newBinds).vm = parent.vm := by
  have hin : ∀ k, k ∈ mapKeys newBinds → ∃ v, mapGet newBinds.reverse k = some v := by
    intro k hk
    have hs := (mapGet_reverse_isSome_iff newBinds k).2 hk
    cases hg : mapGet newBinds.reverse k with
    | none => rw [hg] at hs; cases hs
    | some v => exact ⟨v, rfl⟩
  have hout : ∀ k, k ∉ mapKeys newBinds → mapGet newBinds.reverse k = none := by
    intro k hk
    rw [mapGet_eq_none_iff, mapKeys_reverse, List.mem_reverse]
    exact hk
  refine ⟨?_, ?_, ?_, rfl, rfl⟩
  · intro k hk
    obtain ⟨v, hv⟩ := hin k hk
    obtain ⟨pre, post, hm, hpost⟩ := mapGet_reverse_last newBinds k v hv
    refine ⟨pre, post, v, hm, hpost, ?_⟩
    rw [mapGet_withLocals, hv]
  · intro k hk
    rw [mapGet_withLocals, hout k hk]
  · intro k
    rw [← mapGet_isSome_iff, mapGet_withLocals]
    by_cases hk : k ∈ mapKeys newBinds
    · obtain ⟨v, hv⟩ := hin k hk
      simp [hv, hk]
    · rw [hout k hk]
      simp only [hk, false_or]
      exact mapGet_isSome_iff parent.locals k

/-! ## Shadowing and the scope of a bound node -/

/-- C6, as stated, fails in its second half: `outerCtx` binds `x` to the
variable `y` and `y` to `function(outer)`, so the value of `x` in that context
is `Function [outer]`; the walk of `local y = function(inner) 0; x`, a local
that does not bind `x`, returns `Function [inner]`. -/
theorem funcs_sibling_scope_not_outer :
    mapGet outerCtx.locals "x" = some (.Var "y") ∧
      (∀ fuel, funcs (fuel + 2) (.Var "y") outerCtx = .ok (.Function ["outer"])) ∧
      (∀ fuel, funcs (fuel + 3) (.Var "x") outerCtx = .ok (.Function ["outer"])) ∧
      (∀ fuel, funcs (fuel + 4) (.Local [("y", .Function ["inner"] [])] (.Var "x")) outerCtx
        = .ok (.Function ["inner"])) :=
  ⟨rfl, fun fuel => funcs_mono (Nat.le_add_left 2 fuel) _ _ _ rfl (by simp),
    fun fuel => funcs_mono (Nat.le_add_left 3 fuel) _ _ _ rfl (by simp),
    fun fuel => funcs_mono (Nat.le_add_left 4 fuel) _ _ _ rfl (by simp)⟩

/-- C6, amended: for every context `ctx` that binds `x` to a node `v`,
the walk of `local x = inner; x` is the walk of `inner` under
`ctx.withLocals [(x, inner)]`; and for `y` different from `x` the walk of
`local y = other; x` is the walk of `v` under `ctx.withLocals [(y, other)]`,
the context of the use, which is the walk of `v` under `ctx` when `v` is a
function or an unmodelled node. -/
theorem funcs_local_shadowing (ctx : Ctx) (x y : String) (inner other v : Node) (fuel : Nat)
    (hx : mapGet ctx.locals x = some v) (hxy : y ≠ x) :
    funcs (fuel + 2) (.Local [(x, inner)] (.Var x)) ctx
        = funcs fuel inner (ctx.withLocals [(x, inner)]) ∧
      funcs (fuel + 2) (.Local [(y, other)] (.Var x)) ctx
        = funcs fuel v (ctx.withLocals [(y, other)]) ∧
      (((∃ r o, v = .Function r o) ∨ (∃ t, v = .Other t)) →
        funcs (fuel + 3) (.Local [(y, other)] (.Var x)) ctx = funcs (fuel + 1) v ctx) := by
  have h1 : mapGet (ctx.withLocals [(x, inner)]).locals x = some inner := by
    rw [mapGet_withLocals]
    simp [mapGet]
  have h2 : mapGet (ctx.withLocals [(y, other)]).locals x = some v := by
    rw [mapGet_withLocals]
    simp [mapGet, hxy, hx]
  refine ⟨?_, ?_, ?_⟩
  · rw [funcs_local, funcs_var _ _ _ _ h1]
  · rw [funcs_local, funcs_var _ _ _ _ h2]
  · intro hv
    rw [funcs_local, funcs_var _ _ _ _ h2]
    rcases hv with ⟨r, o, rfl⟩ | ⟨t, rfl⟩
    · rw [funcs_function, funcs_function]
    · rw [funcs_other, funcs_other]

/-- C6, amended, at `x` bound to `function(outer) 0` in the context. -/
theorem funcs_local_shadowing_witness :
    funcs 3 (.Local [("x", .Function ["inner"] [])] (.Var "x"))
        (Ctx.mk "main.libsonnet" (fun _ _ => none) [("x", .Function ["outer"] [])])
        = funcs 1 (.Function ["inner"] [])
          ((Ctx.mk "main.libsonnet" (fun _ _ => none) [("x", .Function ["outer"] [])]).withLocals
            [("x", .Function ["inner"] [])]) ∧
      funcs 3 (.Local [("y", .Other "*ast.Self")] (.Var "x"))
        (Ctx.mk "main.libsonnet" (fun _ _ => none) [("x", .Function ["outer"] [])])
        = funcs 1 (.Function ["outer"] [])
          ((Ctx.mk "main.libsonnet" (fun _ _ => none) [("x", .Function ["outer"] [])]).withLocals
            [("y", .Other "*ast.Self")]) ∧
      (((∃ r o, Node.Function ["outer"] [] = .Function r o) ∨
          (∃ t, Node.Function ["outer"] [] = .Other t)) →
        funcs 4 (.Local [("y", .Other "*ast.Self")] (.Var "x"))
          (Ctx.mk "main.libsonnet" (fun _ _ => none) [("x", .Function ["outer"] [])])
          = funcs 2 (.Function ["outer"] [])
            (Ctx.mk "main.libsonnet" (fun _ _ => none) [("x", .Function ["outer"] [])])) :=
  funcs_local_shadowing
    (Ctx.mk "main.libsonnet" (fun _ _ => none) [("x", .Function ["outer"] [])])
    "x" "y" (.Function ["inner"] []) (.Other "*ast.Self") (.Function ["outer"] []) 1
    rfl (by decide)

/-- C8, as stated, fails: no amount of fuel makes the walk of
`local a = function(p) 0; local b = a; local a = 0; b` return `Function [p]`. -/
theorem funcs_rebinding_reaches_earlier_binding :
    ¬ ∃ fuel, funcs fuel
        (.Local [("a", .Function ["p"] [])]
          (.Local [("b", .Var "a")]
            (.Local [("a", .Other "*ast.LiteralNumber")] (.Var "b"))))
        (rootCtx "main.libsonnet" (fun _ _ => none)) = .ok (.Function ["p"]) := by
  rintro ⟨fuel, h⟩
  have hs : funcs 6
      (.Local [("a", .Function ["p"] [])]
        (.Local [("b", .Var "a")]
          (.Local [("a", .Other "*ast.LiteralNumber")] (.Var "b"))))
      (rootCtx "main.libsonnet" (fun _ _ => none)) = .ok (.Str "*ast.LiteralNumber") := rfl
  have := funcs_unique _ _ _ _ h (by simp) hs (by simp)
  cases this

/-- C8, amended: a bound node is walked under the context of the place where the
variable is used, not of the place where it was bound.  For every function `F`,
every unmodelled node `O` and distinct identifiers `a` and `b`, the walk of
`local a = F; local b = a; local a = O; b` returns the type name of `O`, the
later binding of `a`; without the rebinding, the walk of
`local a = F; local b = a; b` returns the parameters of `F`. -/
theorem funcs_scope_of_use (a b : String) (hab : a ≠ b) (required optional : List String)
    (typeName : String) (ctx : Ctx) (fuel : Nat) :
    funcs (fuel + 6)
        (.Local [(a, .Function required optional)]
          (.Local [(b, .Var a)] (.Local [(a, .Other typeName)] (.Var b)))) ctx
        = .ok (.Str typeName) ∧
      funcs (fuel + 5)
        (.Local [(a, .Function required optional)] (.Local [(b, .Var a)] (.Var b))) ctx
        = .ok (.Function (required ++ optional)) := by
  have hba : b ≠ a := fun e => hab e.symm
  constructor
  · rw [funcs_local, funcs_local, funcs_local]
    rw [funcs_var _ b _ (.Var a) (by simp [mapGet_withLocals, mapGet, hab])]
    rw [funcs_var _ a _ (.Other typeName) (by simp [mapGet_withLocals, mapGet])]
    rw [funcs_other]
  · rw [funcs_local, funcs_local]
    rw [funcs_var _ b _ (.Var a) (by simp [mapGet_withLocals, mapGet])]
    rw [funcs_var _ a _ (.Function required optional)
      (by simp [mapGet_withLocals, mapGet, hba])]
    rw [funcs_function]

/-- C8, amended, at `local a = function(p) 0; local b = a; local a = 0; b`. -/
theorem funcs_scope_of_use_witness :
    funcs 6
        (.Local [("a", .Function ["p"] [])]
          (.Local [("b", .Var "a")]
            (.Local [("a", .Other "*ast.LiteralNumber")] (.Var "b"))))
        (rootCtx "main.libsonnet" (fun _ _ => none)) = .ok (.Str "*ast.LiteralNumber") ∧
      funcs 5
        (.Local [("a", .Function ["p"] [])] (.Local [("b", .Var "a")] (.Var "b")))
        (rootCtx "main.libsonnet" (fun _ _ => none)) = .ok (.Function (["p"] ++ [])) :=
  funcs_scope_of_use "a" "b" (by decide) ["p"] [] "*ast.LiteralNumber"
    (rootCtx "main.libsonnet" (fun _ _ => none)) 0

/-- C9: for every context that binds `id` to a node `v`, the walk of the
variable `id` is the walk of `v` under that same context; and a bind may refer
to a bind declared after it: for every function `F`, identifiers `a` and `b`
and context, the walk of `local a = b, b = F; a` returns the parameters of
`F`. -/
theorem funcs_var_at_use (ctx : Ctx) (id : String) (v : Node) (fuel : Nat)
    (h : mapGet ctx.locals id = some v) :
    funcs (fuel + 1) (.Var id) ctx = funcs fuel v ctx ∧
      ∀ (a b : String) (required optional : List String) (c : Ctx),
        funcs (fuel + 4)
          (.Local [(a, .Var b), (b, .Function required optional)] (.Var a)) c
          = .ok (.Function (required ++ optional)) := by
  refine ⟨funcs_var fuel id ctx v h, ?_⟩
  intro a b required optional c
  by_cases hab : a = b
  · subst hab
    rw [funcs_local]
    rw [funcs_var _ a _ (.Function required optional) (by simp [mapGet_withLocals, mapGet])]
    rw [funcs_function]
  · have hba : ¬ b = a := fun e => hab e.symm
    rw [funcs_local]
    rw [funcs_var _ a _ (.Var b) (by simp [mapGet_withLocals, mapGet, hba])]
    rw [funcs_var _ b _ (.Function required optional) (by simp [mapGet_withLocals, mapGet])]
    rw [funcs_function]

/-- C9, at a context that binds `f` to `function(a, b, c=0) 0`. -/
theorem funcs_var_at_use_witness :
    funcs 2 (.Var "f")
        { file := "main.libsonnet", vm := fun _ _ => none,
          locals := [("f", .Function ["a", "b"] ["c"])] }
        = funcs 1 (.Function ["a", "b"] ["c"])
          { file := "main.libsonnet", vm := fun _ _ => none,
            locals := [("f", .Function ["a", "b"] ["c"])] } ∧
      ∀ (a b : String) (required optional : List String) (c : Ctx),
        funcs 5 (.Local [(a, .Var b), (b, .Function required optional)] (.Var a)) c
          = .ok (.Function (required ++ optional)) :=
  funcs_var_at_use
    { file := "main.libsonnet", vm := fun _ _ => none,
      locals := [("f", .Function ["a", "b"] ["c"])] }
    "f" (.Function ["a", "b"] ["c"]) 1 rfl

/-- C10: for every function with required parameters `r` and optional
parameters `o`, under every context and with any fuel the walk returns
`Function (r ++ o)`, the required names in their order and then the optional
ones in theirs: `|r| + |o|` names, the same under every context, never a
failure.  Required `[a, b]` and optional `[c]` give `[a, b, c]`. -/
theorem funcs_function_signature (fuel : Nat) (ctx : Ctx) (r o : List String) :
    funcs (fuel + 1) (.Function r o) ctx = .ok (.Function (r ++ o)) ∧
      (r ++ o).length = r.length + o.length ∧
      (∀ c : Ctx, funcs (fuel + 1) (.Function r o) c = funcs (fuel + 1) (.Function r o) ctx) ∧
      funcs (fuel + 1) (.Function ["a", "b"] ["c"]) ctx = .ok (.Function ["a", "b", "c"]) := by
  refine ⟨funcs_function fuel r o ctx, List.length_append _ _, ?_, ?_⟩
  · intro c
    rw [funcs_function, funcs_function]
  · rw [funcs_function]
    rfl

/-! ## More cases of the walk -/

theorem funcs_literal (fuel : Nat) (value : String) (ctx : Ctx) :
    funcs (fuel + 1) (.LiteralString value) ctx = .ok (.Str "*ast.LiteralString") := by
  rw [funcs]

theorem funcs_var_unbound (fuel : Nat) (id : String) (ctx : Ctx)
    (h : mapGet ctx.locals id = none) :
    funcs (fuel + 1) (.Var id) ctx = .fatal .unknownVariable := by
  rw [funcs]
  simp only [h]

theorem funcs_index_unbound (fuel : Nat) (x : String) (index : Node) (ctx : Ctx)
    (h : mapGet ctx.locals x = none) :
    funcs (fuel + 1) (.Index (.Var x) index) ctx = .fatal .unknownVariable := by
  rw [funcs]
  simp only [h]

theorem funcs_index_found (fuel : Nat) (x index : String) (ctx : Ctx) (p found : Node)
    (h : mapGet ctx.locals x = some p) (hf : field p index = .node found) :
    funcs (fuel + 1) (.Index (.Var x) (.LiteralString index)) ctx = funcs fuel found ctx := by
  rw [funcs]
  simp only [h, hf]

theorem funcs_index_missing (fuel : Nat) (x index : String) (ctx : Ctx) (p : Node)
    (h : mapGet ctx.locals x = some p) (hf : field p index = .nil) :
    funcs (fuel + 1) (.Index (.Var x) (.LiteralString index)) ctx = .ok (.Str "<nil>") := by
  rw [funcs]
  simp only [h, hf]

theorem funcs_import_ok (fuel : Nat) (file : String) (ctx : Ctx) (imported : Node)
    (path : String) (h : ctx.vm ctx.file file = some (imported, path)) :
    funcs (fuel + 1) (.Import file) ctx = funcs fuel imported (ctx.withFile path) := by
  rw [funcs]
  simp only [h]

theorem funcs_import_error (fuel : Nat) (file : String) (ctx : Ctx)
    (h : ctx.vm ctx.file file = none) :
    funcs (fuel + 1) (.Import file) ctx = .fatal .importError := by
  rw [funcs]
  simp only [h]

/-! ## First and last field of a name -/

/-- On fields with literal names the loop of `field` is a lookup by first
match. -/
theorem fieldLoop_lit (fields : List (String × Node)) (id : String) :
    fieldLoop (litFields fields) id =
      match mapGet fields id with
      | some body => .node body
      | none => .nil := by
  induction fields with
  | nil => rfl
  | cons f rest ih =>
    obtain ⟨k0, v0⟩ := f
    rw [litFields_cons]
    by_cases h : k0 = id <;> simp [fieldLoop, mapGet, h, ih]

theorem mapGet_first {α : Type} (pre post : List (String × α)) (k : String) (v : α)
    (h : k ∉ mapKeys pre) : mapGet (pre ++ (k, v) :: post) k = some v := by
  rw [mapGet_append, (mapGet_eq_none_iff pre k).2 h]
  simp [mapGet]

theorem mapGet_reverse_of_last {α : Type} (pre post : List (String × α)) (k : String) (v : α)
    (h : k ∉ mapKeys post) : mapGet (pre ++ (k, v) :: post).reverse k = some v := by
  have hrev : (pre ++ (k, v) :: post).reverse = post.reverse ++ (k, v) :: pre.reverse := by
    simp
  rw [hrev]
  apply mapGet_first
  rw [mapKeys_reverse, List.mem_reverse]
  exact h

/-- The loop of `field` passes the fields with a literal name other than `id`. -/
theorem fieldLoop_skip (pre : List (String × Node)) (rest : List (Node × Node)) (id : String)
    (h : id ∉ mapKeys pre) : fieldLoop (litFields pre ++ rest) id = fieldLoop rest id := by
  induction pre with
  | nil => rfl
  | cons f more ih =>
    obtain ⟨k0, v0⟩ := f
    simp only [mapKeys, List.map_cons, List.mem_cons, not_or] at h
    have hk : ¬ k0 = id := fun e => h.1 e.symm
    rw [litFields_cons, List.cons_append]
    simp only [fieldLoop, hk, if_false]
    exact ih h.2

/-- The walk of an object whose field names are literal and pairwise distinct
and whose field walks all return: the map holds each field's own value. -/
theorem funcs_object_get (fuel : Nat) (ctx : Ctx) (fields locals : List (String × Node))
    (hnd : (mapKeys fields).Nodup)
    (hok : ∀ f ∈ fields, ∃ v, funcs fuel f.2 (ctx.withLocals locals) = .ok v) :
    ∃ o, funcs (fuel + 1) (.DesugaredObject (litFields fields) locals) ctx = .ok (.Map o) ∧
      ∀ f ∈ fields, ∃ v, mapGet o f.1 = some v ∧
        funcs fuel f.2 (ctx.withLocals locals) = .ok v := by
  obtain ⟨o, ho⟩ := fieldsLoop_ok_of_all
    (fun body => funcs fuel body (ctx.withLocals locals)) fields [] hok
  refine ⟨o, by rw [funcs, ho], ?_⟩
  intro f hf
  have hrev : (mapKeys fields.reverse).Nodup := by
    rw [mapKeys_reverse]
    exact List.nodup_reverse.2 hnd
  have hget : mapGet fields.reverse f.1 = some f.2 :=
    mapGet_of_mem_nodup fields.reverse f.1 f.2 hrev (List.mem_reverse.2 hf)
  have h := mapGet_fieldsLoop _ fields [] o ho f.1
  rw [hget] at h
  obtain ⟨v, hv, hg⟩ := h
  exact ⟨v, hg, hv⟩

/-- The loop stops at the first field whose walk does not return, with the
outcome of that walk. -/
theorem fieldsLoop_first_failure (walk : Node → Res Value) (pre : List (String × Node))
    (post : List (Node × Node)) (name : String) (body : Node) (o : List (String × Value))
    (hpre : ∀ g ∈ pre, ∃ v, walk g.2 = .ok v) :
    fieldsLoop walk (litFields pre ++ (.LiteralString name, body) :: post) o =
      match walk body with
      | .ok v =>
        match fieldsLoop walk (litFields pre) o with
        | .ok o' => fieldsLoop walk post (mapSet o' name v)
        | .fatal e => .fatal e
        | .panic => .panic
        | .outOfFuel => .outOfFuel
      | .fatal e => .fatal e
      | .panic => .panic
      | .outOfFuel => .outOfFuel := by
  induction pre generalizing o with
  | nil =>
    simp only [litFields_nil, List.nil_append, fieldsLoop]
  | cons g rest ih =>
    obtain ⟨v, hv⟩ := hpre g (List.mem_cons_self _ _)
    have hrest : ∀ g' ∈ rest, ∃ v, walk g'.2 = .ok v :=
      fun g' hg' => hpre g' (List.mem_cons_of_mem _ hg')
    rw [litFields_cons, List.cons_append]
    simp only [fieldsLoop, hv]
    exact ih _ hrest

/-- The loop of the object case ends in the failed assertion at the first
field whose name is not a literal string, when the walks before it return. -/
theorem fieldsLoop_first_computed (walk : Node → Res Value) (pre : List (String × Node))
    (post : List (Node × Node)) (name body : Node) (o : List (String × Value))
    (hname : ∀ s, name ≠ .LiteralString s)
    (hpre : ∀ g ∈ pre, ∃ v, walk g.2 = .ok v) :
    fieldsLoop walk (litFields pre ++ (name, body) :: post) o = .panic := by
  induction pre generalizing o with
  | nil =>
    rw [litFields_nil, List.nil_append]
    cases name with
    | LiteralString s => exact absurd rfl (hname s)
    | _ => simp [fieldsLoop]
  | cons g rest ih =>
    obtain ⟨v, hv⟩ := hpre g (List.mem_cons_self _ _)
    have hrest : ∀ g' ∈ rest, ∃ v, walk g'.2 = .ok v :=
      fun g' hg' => hpre g' (List.mem_cons_of_mem _ hg')
    rw [litFields_cons, List.cons_append]
    simp only [fieldsLoop, hv]
    exact ih _ hrest

/-! ## Fatal errors -/

/-- C11, as stated, fails in its second half: in
`{ a: import "missing", b: nope }` the walk of the body of `b` ends in
`log.Fatalln("unknown variable: ...")`, and no amount of fuel makes the walk of
the object end in that error: it ends in the import error of `a`. -/
theorem funcs_object_reports_first_failure :
    (∀ fuel, funcs (fuel + 1) (.Var "nope")
        ((rootCtx "main.libsonnet" (fun _ _ => none)).withLocals [])
        = .fatal .unknownVariable) ∧
      (∀ fuel, funcs (fuel + 2)
        (.DesugaredObject (litFields [("a", .Import "missing"), ("b", .Var "nope")]) [])
        (rootCtx "main.libsonnet" (fun _ _ => none)) = .fatal .importError) ∧
      ¬ ∃ fuel, funcs fuel
        (.DesugaredObject (litFields [("a", .Import "missing"), ("b", .Var "nope")]) [])
        (rootCtx "main.libsonnet" (fun _ _ => none)) = .fatal .unknownVariable := by
  refine ⟨fun fuel => funcs_mono (Nat.le_add_left 1 fuel) _ _ _ rfl (by simp),
    fun fuel => funcs_mono (Nat.le_add_left 2 fuel) _ _ _ rfl (by simp), ?_⟩
  rintro ⟨fuel, h⟩
  have hi : funcs 2
      (.DesugaredObject (litFields [("a", .Import "missing"), ("b", .Var "nope")]) [])
      (rootCtx "main.libsonnet" (fun _ _ => none)) = .fatal .importError := rfl
  have := funcs_unique _ _ _ _ h (by simp) hi (by simp)
  cases this

/-- C11, amended: under a context that does not bind `id`, the walk of the
variable `id` ends in the unknown-variable error.  The walk of a local ends in
the fatal error of the walk of its body under the extended context.  The walk
of an object ends in the fatal error of the walk of a field body under the
extended context when the walks of the fields before it return (their names,
and the name of the field, being literal strings); and as soon as the walk of
any one field body ends in a fatal error, no amount of fuel makes the walk of
the object return a value. -/
theorem funcs_fatal_propagates (ctx : Ctx) (fuel : Nat) :
    (∀ id, mapGet ctx.locals id = none →
        funcs (fuel + 1) (.Var id) ctx = .fatal .unknownVariable) ∧
      (∀ binds body e, funcs fuel body (ctx.withLocals binds) = .fatal e →
        funcs (fuel + 1) (.Local binds body) ctx = .fatal e) ∧
      (∀ (pre : List (String × Node)) (post : List (Node × Node)) (name : String)
          (body : Node) (locals : List (String × Node)) (e : Fatal),
        (∀ g ∈ pre, ∃ v, funcs fuel g.2 (ctx.withLocals locals) = .ok v) →
        funcs fuel body (ctx.withLocals locals) = .fatal e →
        funcs (fuel + 1)
          (.DesugaredObject (litFields pre ++ (.LiteralString name, body) :: post) locals) ctx
          = .fatal e) ∧
      (∀ (fields : List (Node × Node)) (locals : List (String × Node)) (f : Node × Node)
          (e : Fatal), f ∈ fields →
        funcs fuel f.2 (ctx.withLocals locals) = .fatal e →
        ¬ ∃ n v, funcs n (.DesugaredObject fields locals) ctx = .ok v) := by
  refine ⟨fun id h => funcs_var_unbound fuel id ctx h, ?_, ?_, ?_⟩
  · intro binds body e h
    rw [funcs_local, h]
  · intro pre post name body locals e hpre hf
    rw [funcs, fieldsLoop_first_failure _ pre post name body [] hpre]
    simp only [hf]
  · rintro fields locals f e hmem hf ⟨n, v, hv⟩
    obtain ⟨m, o, -, -, hl⟩ := funcs_object_ok n fields locals ctx v hv
    obtain ⟨w, hw⟩ := fieldsLoop_all_of_ok _ fields [] o hl f hmem
    have := funcs_unique _ _ _ _ hw (by simp) hf (by simp)
    cases this

/-- C11, amended, at `{ a: function(p) 0, b: nope, c: function(q) 0 }`: the
object ends in the unknown-variable error of `b`. -/
theorem funcs_fatal_propagates_witness :
    funcs 2
      (.DesugaredObject
        (litFields [("a", .Function ["p"] [])] ++ (.LiteralString "b", .Var "nope") ::
          litFields [("c", .Function ["q"] [])]) [])
      (rootCtx "main.libsonnet" (fun _ _ => none)) = .fatal .unknownVariable :=
  (funcs_fatal_propagates (rootCtx "main.libsonnet" (fun _ _ => none)) 1).2.2.1
    [("a", .Function ["p"] [])] (litFields [("c", .Function ["q"] [])]) "b" (.Var "nope") []
    .unknownVariable
    (by
      intro g hg
      simp only [List.mem_singleton] at hg
      subst hg
      exact ⟨.Function ["p"], rfl⟩)
    rfl

/-! ## Indexing a variable -/

/-- C12: for every context `ctx`, identifier `x` and field name `f`, the walk
of `x.f` ends in the unknown-variable error when `ctx` does not bind `x`; and
when `ctx` binds `x` to a node `p` in which `field` finds a node `found`, it is
the walk of `found` under `ctx` itself: the locals of the indexed object and of
the locals around it are not in scope.  So with `lib` bound to
`local h = function(a) 0; { g: h }` the walk of `lib.g` ends in the
unknown-variable error for `h`, while the walk of `lib` returns
`{ g: Function [a] }`. -/
theorem funcs_index_under_caller (ctx : Ctx) (x f : String) (fuel : Nat) :
    (mapGet ctx.locals x = none →
        funcs (fuel + 1) (.Index (.Var x) (.LiteralString f)) ctx = .fatal .unknownVariable) ∧
      (∀ p found, mapGet ctx.locals x = some p → field p f = .node found →
        funcs (fuel + 1) (.Index (.Var x) (.LiteralString f)) ctx = funcs fuel found ctx) ∧
      funcs (fuel + 2) (.Index (.Var "lib") (.LiteralString "g"))
        (Ctx.mk "main.libsonnet" (fun _ _ => none)
          [("lib", .Local [("h", .Function ["a"] [])]
            (.DesugaredObject (litFields [("g", .Var "h")]) []))])
        = .fatal .unknownVariable ∧
      funcs (fuel + 5) (.Var "lib")
        (Ctx.mk "main.libsonnet" (fun _ _ => none)
          [("lib", .Local [("h", .Function ["a"] [])]
            (.DesugaredObject (litFields [("g", .Var "h")]) []))])
        = .ok (.Map [("g", .Function ["a"])]) :=
  ⟨fun h => funcs_index_unbound fuel x (.LiteralString f) ctx h,
    fun p found h hf => funcs_index_found fuel x f ctx p found h hf,
    funcs_mono (Nat.le_add_left 2 fuel) _ _ _ rfl (by simp),
    funcs_mono (Nat.le_add_left 5 fuel) _ _ _ rfl (by simp)⟩

/-- C12, at `x` bound to `{ g: function(a) 0 }` and at an unbound `x`. -/
theorem funcs_index_under_caller_witness :
    funcs 2 (.Index (.Var "x") (.LiteralString "g"))
        (Ctx.mk "main.libsonnet" (fun _ _ => none)
          [("x", .DesugaredObject (litFields [("g", .Function ["a"] [])]) [])])
        = funcs 1 (.Function ["a"] [])
          (Ctx.mk "main.libsonnet" (fun _ _ => none)
            [("x", .DesugaredObject (litFields [("g", .Function ["a"] [])]) [])]) ∧
      funcs 2 (.Index (.Var "x") (.LiteralString "g"))
        (rootCtx "main.libsonnet" (fun _ _ => none)) = .fatal .unknownVariable :=
  ⟨(funcs_index_under_caller
      (Ctx.mk "main.libsonnet" (fun _ _ => none)
        [("x", .DesugaredObject (litFields [("g", .Function ["a"] [])]) [])]) "x" "g" 1).2.1
      (.DesugaredObject (litFields [("g", .Function ["a"] [])]) []) (.Function ["a"] []) rfl rfl,
    (funcs_index_under_caller (rootCtx "main.libsonnet" (fun _ _ => none)) "x" "g" 1).1 rfl⟩

/-! ## Degraded fields -/

theorem field_object_missing (fields locals : List (String × Node)) (f : String)
    (hf : f ∉ mapKeys fields) : field (.DesugaredObject (litFields fields) locals) f = .nil := by
  rw [field, fieldLoop_lit, (mapGet_eq_none_iff fields f).2 hf]

/-- An object with literal, pairwise distinct field names, one field of which
returns with one more unit of fuel than its siblings need. -/
theorem funcs_object_one_more (fuel : Nat) (c : Ctx) (fields locals : List (String × Node))
    (d : String × Node) (dv : Value) (hnd : (mapKeys fields).Nodup) (hd : d ∈ fields)
    (hdv : funcs (fuel + 1) d.2 (c.withLocals locals) = .ok dv)
    (hsib : ∀ g ∈ fields, g ≠ d → ∃ v, funcs fuel g.2 (c.withLocals locals) = .ok v) :
    ∃ o, funcs (fuel + 2) (.DesugaredObject (litFields fields) locals) c = .ok (.Map o) ∧
      mapGet o d.1 = some dv ∧
      ∀ g ∈ fields, g ≠ d → ∃ v, mapGet o g.1 = some v ∧
        funcs fuel g.2 (c.withLocals locals) = .ok v := by
  have hall : ∀ g ∈ fields, ∃ v, funcs (fuel + 1) g.2 (c.withLocals locals) = .ok v := by
    intro g hg
    by_cases hgd : g = d
    · subst hgd
      exact ⟨dv, hdv⟩
    · obtain ⟨v, hv⟩ := hsib g hg hgd
      exact ⟨v, funcs_succ _ _ _ _ hv (by simp)⟩
  obtain ⟨o, ho, hget⟩ := funcs_object_get (fuel + 1) c fields locals hnd hall
  refine ⟨o, ho, ?_, ?_⟩
  · obtain ⟨v, hg, hv⟩ := hget d hd
    rw [hdv] at hv
    cases hv
    exact hg
  · intro g hg hgd
    obtain ⟨v, hgv, hv⟩ := hget g hg
    obtain ⟨w, hw⟩ := hsib g hg hgd
    have := funcs_unique _ _ _ _ hv (by simp) hw (by simp)
    cases this
    exact ⟨v, hgv, hw⟩

/-- C13, as stated, fails: with `x` bound to `{ g: function() 0 }`, the walk of
`x.f` returns the string `<nil>`, a value of the same kind as the placeholder
of an unmodelled node, and not a value apart from it. -/
theorem funcs_missing_field_is_a_placeholder :
    funcs 1 (.Index (.Var "x") (.LiteralString "f"))
        (Ctx.mk "main.libsonnet" (fun _ _ => none)
          [("x", .DesugaredObject (litFields [("g", .Function [] [])]) [])])
        = .ok (.Str "<nil>") ∧
      ¬ ∀ tag, funcs 1 (.Index (.Var "x") (.LiteralString "f"))
        (Ctx.mk "main.libsonnet" (fun _ _ => none)
          [("x", .DesugaredObject (litFields [("g", .Function [] [])]) [])])
        ≠ .ok (.Str tag) :=
  ⟨rfl, fun h => h "<nil>" rfl⟩

/-- C13, amended: when the context in force binds `x` to an object that has no
field named `f`, the walk of `x.f` does not fail: it returns the string
`<nil>`, the placeholder the walk prints for a missing node, which is neither a
`Function` nor a map.  When `x.f` is the body of one field of an enclosing
object whose field names are pairwise distinct and whose other fields return,
the walk of the enclosing object returns a map that holds `<nil>` under the
name of that field and, under the name of each other field, that field's own
value. -/
theorem funcs_missing_field_degrades (c : Ctx) (x f name : String)
    (fields locals outerFields outerLocals : List (String × Node)) (fuel : Nat)
    (hx : mapGet (c.withLocals outerLocals).locals x
      = some (.DesugaredObject (litFields fields) locals))
    (hf : f ∉ mapKeys fields)
    (hnd : (mapKeys outerFields).Nodup)
    (hmem : (name, Node.Index (.Var x) (.LiteralString f)) ∈ outerFields)
    (hsib : ∀ g ∈ outerFields, g ≠ (name, Node.Index (.Var x) (.LiteralString f)) →
      ∃ v, funcs fuel g.2 (c.withLocals outerLocals) = .ok v) :
    funcs (fuel + 1) (.Index (.Var x) (.LiteralString f)) (c.withLocals outerLocals)
        = .ok (.Str "<nil>") ∧
      (∀ ps, funcs (fuel + 1) (.Index (.Var x) (.LiteralString f)) (c.withLocals outerLocals)
        ≠ .ok (.Function ps)) ∧
      (∀ o, funcs (fuel + 1) (.Index (.Var x) (.LiteralString f)) (c.withLocals outerLocals)
        ≠ .ok (.Map o)) ∧
      ∃ o, funcs (fuel + 2) (.DesugaredObject (litFields outerFields) outerLocals) c
          = .ok (.Map o) ∧
        mapGet o name = some (.Str "<nil>") ∧
        ∀ g ∈ outerFields, g ≠ (name, Node.Index (.Var x) (.LiteralString f)) →
          ∃ v, mapGet o g.1 = some v ∧ funcs fuel g.2 (c.withLocals outerLocals) = .ok v := by
  have hidx : funcs (fuel + 1) (.Index (.Var x) (.LiteralString f)) (c.withLocals outerLocals)
      = .ok (.Str "<nil>") :=
    funcs_index_missing fuel x f _ _ hx (field_object_missing fields locals f hf)
  refine ⟨hidx, ?_, ?_, ?_⟩
  · intro ps h
    rw [hidx] at h
    cases h
  · intro o h
    rw [hidx] at h
    cases h
  · exact funcs_object_one_more fuel c outerFields outerLocals
      (name, .Index (.Var x) (.LiteralString f)) (.Str "<nil>") hnd hmem hidx hsib

/-- C13, amended, at `{ local x = { g: function() 0 }, a: x.f, b: function(p) 0 }`. -/
theorem funcs_missing_field_degrades_witness :
    ∃ o, funcs 3
        (.DesugaredObject
          (litFields [("a", .Index (.Var "x") (.LiteralString "f")), ("b", .Function ["p"] [])])
          [("x", .DesugaredObject (litFields [("g", .Function [] [])]) [])])
        (rootCtx "main.libsonnet" (fun _ _ => none)) = .ok (.Map o) ∧
      mapGet o "a" = some (.Str "<nil>") ∧
      ∀ g ∈ [("a", Node.Index (.Var "x") (.LiteralString "f")), ("b", Node.Function ["p"] [])],
        g ≠ ("a", Node.Index (.Var "x") (.LiteralString "f")) →
        ∃ v, mapGet o g.1 = some v ∧
          funcs 1 g.2 ((rootCtx "main.libsonnet" (fun _ _ => none)).withLocals
            [("x", .DesugaredObject (litFields [("g", .Function [] [])]) [])]) = .ok v :=
  (funcs_missing_field_degrades (rootCtx "main.libsonnet" (fun _ _ => none)) "x" "f" "a"
    [("g", .Function [] [])] []
    [("a", .Index (.Var "x") (.LiteralString "f")), ("b", .Function ["p"] [])]
    [("x", .DesugaredObject (litFields [("g", .Function [] [])]) [])] 1
    rfl (by decide) (by decide) (by simp)
    (by
      intro g hg hne
      simp only [List.mem_cons, List.mem_singleton, List.not_mem_nil, or_false] at hg
      rcases hg with rfl | rfl
      · exact absurd rfl hne
      · exact ⟨.Function ["p"], rfl⟩)).2.2.2

/-! ## The field locator -/

theorem fieldLoop_lit_ne_panic (fields : List (Node × Node)) (f : String)
    (h : fields.all (fun g => g.1.isLiteralString) = true) : fieldLoop fields f ≠ .panic := by
  induction fields with
  | nil => simp [fieldLoop]
  | cons g rest ih =>
    obtain ⟨name, body⟩ := g
    simp only [List.all_cons, Bool.and_eq_true] at h
    cases name with
    | LiteralString s =>
      by_cases hs : s = f
      · simp [fieldLoop, hs]
      · simp only [fieldLoop, hs, if_false]
        exact ih h.2
    | _ => simp [Node.isLiteralString] at h

/-- On a node whose object has literal field names `field` does not panic. -/
theorem field_ne_panic (f : String) : ∀ node : Node,
    node.literalNames = true → field node f ≠ .panic
  | .Local _ body, h => by
    rw [field]
    exact field_ne_panic f body (by simpa [Node.literalNames] using h)
  | .DesugaredObject fields _, h => by
    rw [field]
    exact fieldLoop_lit_ne_panic fields f (by simpa [Node.literalNames] using h)
  | .Function _ _, _ => by simp [field]
  | .Import _, _ => by simp [field]
  | .Var _, _ => by simp [field]
  | .Index _ _, _ => by simp [field]
  | .LiteralString _, _ => by simp [field]
  | .Other _, _ => by simp [field]

/-- The loop of `field` ends in the failed assertion at the first field whose
name is not a literal string. -/
theorem fieldLoop_computed (rest : List (Node × Node)) (name body : Node) (f : String)
    (h : ∀ s, name ≠ .LiteralString s) : fieldLoop ((name, body) :: rest) f = .panic := by
  cases name with
  | LiteralString s => exact absurd rfl (h s)
  | _ => simp [fieldLoop]

/-- C14, as stated, fails: in `{ [k]: function(a) 0, f: function(b) 0 }` the
second field is named `f`, and `field` does not return its body: it ends in the
failed type assertion on the computed name of the first field; and in
`{ [k]: function(a) 0 }`, where no field is named `f`, it ends there too and
does not return `nil`. -/
theorem field_panics_on_computed_name :
    field (.DesugaredObject
        [(.Var "k", .Function ["a"] []), (.LiteralString "f", .Function ["b"] [])] []) "f"
        = .panic ∧
      field (.DesugaredObject [(.Var "k", .Function ["a"] [])] []) "f" = .panic :=
  ⟨rfl, rfl⟩

/-- C14, amended: `field` looks at the shape of the node only.  On a local it
is `field` of the body, whatever the binds.  On an object it scans the fields
in order: it is the body of the first field named by the literal string `f`
when the fields before it have other literal strings for names; it is `nil`
when every field name is a literal string other than `f`; and it ends in a
failed type assertion at the first field whose name is not a literal string,
when the fields before it have literal strings other than `f` for names.  On a
function, an import, a variable, an index, a literal string and an unmodelled
node it is `nil`.  It returns on every node, with a node, `nil` or that failed
assertion, and it does not fail on a node whose object has literal strings for
all its field names. -/
theorem field_structural (f : String) :
    (∀ binds body, field (.Local binds body) f = field body f) ∧
      (∀ (pre : List (String × Node)) (post : List (Node × Node)) locals body,
        f ∉ mapKeys pre →
        field (.DesugaredObject (litFields pre ++ (.LiteralString f, body) :: post) locals) f
          = .node body) ∧
      (∀ fields locals, f ∉ mapKeys fields →
        field (.DesugaredObject (litFields fields) locals) f = .nil) ∧
      (∀ (pre : List (String × Node)) (post : List (Node × Node)) locals name body,
        f ∉ mapKeys pre → (∀ s, name ≠ .LiteralString s) →
        field (.DesugaredObject (litFields pre ++ (name, body) :: post) locals) f = .panic) ∧
      (∀ required optional, field (.Function required optional) f = .nil) ∧
      (∀ file, field (.Import file) f = .nil) ∧
      (∀ id, field (.Var id) f = .nil) ∧
      (∀ target index, field (.Index target index) f = .nil) ∧
      (∀ value, field (.LiteralString value) f = .nil) ∧
      (∀ typeName, field (.Other typeName) f = .nil) ∧
      (∀ node, field node f = .panic ∨ field node f = .nil ∨ ∃ n, field node f = .node n) ∧
      (∀ node, node.literalNames = true → field node f ≠ .panic) := by
  refine ⟨fun _ _ => by rw [field], ?_,
    fun fields locals h => field_object_missing fields locals f h, ?_,
    fun _ _ => by simp [field], fun _ => by simp [field], fun _ => by simp [field],
    fun _ _ => by simp [field], fun _ => by simp [field], fun _ => by simp [field], ?_,
    fun node h => field_ne_panic f node h⟩
  · intro pre post locals body h
    rw [field, fieldLoop_skip pre _ f h]
    simp [fieldLoop]
  · intro pre post locals name body h hname
    rw [field, fieldLoop_skip pre _ f h]
    exact fieldLoop_computed post name body f hname
  · intro node
    cases field node f with
    | node n => exact Or.inr (Or.inr ⟨n, rfl⟩)
    | nil => exact Or.inr (Or.inl rfl)
    | panic => exact Or.inl rfl

/-- C14, amended, at
`local t = 0; { a: function(x) 0, b: function(y) 0, b: function(z) 0 }` and the
name `b`, and at `{ a: function(x) 0, [k]: function(y) 0 }` and the name `b`. -/
theorem field_structural_witness :
    field (.Local [("t", .Other "*ast.LiteralNumber")]
        (.DesugaredObject (litFields [("a", .Function ["x"] [])] ++
          (.LiteralString "b", .Function ["y"] []) ::
          litFields [("b", .Function ["z"] [])]) [])) "b" = .node (.Function ["y"] []) ∧
      field (.DesugaredObject (litFields [("a", .Function ["x"] [])] ++
          (.Var "k", .Function ["y"] []) :: []) []) "b" = .panic ∧
      field (.Local [("t", .Other "*ast.LiteralNumber")]
        (.DesugaredObject (litFields [("a", .Function ["x"] [])]) [])) "b" ≠ .panic :=
  ⟨((field_structural "b").1 _ _).trans
      ((field_structural "b").2.1 [("a", .Function ["x"] [])]
        (litFields [("b", .Function ["z"] [])]) [] (.Function ["y"] []) (by decide)),
    (field_structural "b").2.2.2.1 [("a", .Function ["x"] [])] [] [] (.Var "k")
      (.Function ["y"] []) (by decide) (by intro s h; cases h),
    (field_structural "b").2.2.2.2.2.2.2.2.2.2.2 _ (by decide)⟩

/-! ## Imports -/

/-- C15: for every context `ctx` and import of `t`: when the importer, asked
with the file of `ctx` and `t`, answers a root node and a path, the walk of
the import is the walk of that root under `ctx.withFile path`, a context whose
file is `path` and whose locals (and VM) are exactly those of `ctx`; when the
VM reports an error, the walk ends in the import error.  `withFile` changes no
binding. -/
theorem funcs_import_under_withFile (ctx : Ctx) (t : String) (fuel : Nat) :
    (∀ root path, ctx.vm ctx.file t = some (root, path) →
        funcs (fuel + 1) (.Import t) ctx = funcs fuel root (ctx.withFile path)) ∧
      (ctx.vm ctx.file t = none → funcs (fuel + 1) (.Import t) ctx = .fatal .importError) ∧
      (∀ path, (ctx.withFile path).file = path ∧ (ctx.withFile path).locals = ctx.locals ∧
        (ctx.withFile path).vm = ctx.vm ∧
        ∀ k, mapGet (ctx.withFile path).locals k = mapGet ctx.locals k) :=
  ⟨fun root path h => funcs_import_ok fuel t ctx root path h,
    fun h => funcs_import_error fuel t ctx h,
    fun _ => ⟨rfl, rfl, rfl, fun _ => rfl⟩⟩

/-- C15, at the importer that knows `lib` and at a file it does not know. -/
theorem funcs_import_under_withFile_witness :
    funcs 3 (.Import "lib") (rootCtx "main.libsonnet" libImporter)
        = funcs 2 (.DesugaredObject (litFields [("fn", .Function ["y"] [])]) [])
          ((rootCtx "main.libsonnet" libImporter).withFile "lib.libsonnet") ∧
      funcs 3 (.Import "other") (rootCtx "main.libsonnet" libImporter) = .fatal .importError :=
  ⟨(funcs_import_under_withFile (rootCtx "main.libsonnet" libImporter) "lib" 2).1 _ _ rfl,
    (funcs_import_under_withFile (rootCtx "main.libsonnet" libImporter) "other" 2).2.1 rfl⟩

/-! ## Unmodelled nodes -/

/-- C16, as stated, fails in its second half: in `{ a: self, a: function(x) 0 }`
the walk returns a map whose entry under `a`, the name of the field with the
unmodelled body, is `Function [x]` and not the placeholder. -/
theorem funcs_placeholder_overwritten :
    funcs 2
        (.DesugaredObject (litFields [("a", .Other "*ast.Self"), ("a", .Function ["x"] [])]) [])
        (rootCtx "main.libsonnet" (fun _ _ => none)) = .ok (.Map [("a", .Function ["x"])]) ∧
      mapGet [("a", Value.Function ["x"])] "a" ≠ some (.Str "*ast.Self") := by
  refine ⟨rfl, ?_⟩
  intro h
  simp [mapGet] at h

/-- C16, amended: for every unmodelled node with type name `t` and every
context the walk returns the placeholder `t` and never fails (a literal string
met as a node is one of them, with the type name `*ast.LiteralString`); and for
every object whose field names are pairwise distinct, one of whose field bodies
is such a node and whose other fields return, the walk of the object returns a
map that holds the placeholder `t` under the name of that field and, under the
name of each other field, that field's own value. -/
theorem funcs_placeholder_entry (c : Ctx) (t name : String)
    (fields locals : List (String × Node)) (fuel : Nat)
    (hnd : (mapKeys fields).Nodup)
    (hmem : (name, Node.Other t) ∈ fields)
    (hsib : ∀ g ∈ fields, g ≠ (name, Node.Other t) →
      ∃ v, funcs fuel g.2 (c.withLocals locals) = .ok v) :
    (∀ ctx : Ctx, funcs (fuel + 1) (.Other t) ctx = .ok (.Str t)) ∧
      (∀ (value : String) (ctx : Ctx),
        funcs (fuel + 1) (.LiteralString value) ctx = .ok (.Str "*ast.LiteralString")) ∧
      ∃ o, funcs (fuel + 2) (.DesugaredObject (litFields fields) locals) c = .ok (.Map o) ∧
        mapGet o name = some (.Str t) ∧
        ∀ g ∈ fields, g ≠ (name, Node.Other t) →
          ∃ v, mapGet o g.1 = some v ∧ funcs fuel g.2 (c.withLocals locals) = .ok v :=
  ⟨fun ctx => funcs_other fuel t ctx, fun value ctx => funcs_literal fuel value ctx,
    funcs_object_one_more fuel c fields locals (name, .Other t) (.Str t) hnd hmem
      (funcs_other fuel t _) hsib⟩

/-- C16, amended, at `{ a: self, b: function(p) 0 }`. -/
theorem funcs_placeholder_entry_witness :
    (∀ ctx : Ctx, funcs 2 (.Other "*ast.Self") ctx = .ok (.Str "*ast.Self")) ∧
      (∀ (value : String) (ctx : Ctx),
        funcs 2 (.LiteralString value) ctx = .ok (.Str "*ast.LiteralString")) ∧
      ∃ o, funcs 3
          (.DesugaredObject
            (litFields [("a", .Other "*ast.Self"), ("b", .Function ["p"] [])]) [])
          (rootCtx "main.libsonnet" (fun _ _ => none)) = .ok (.Map o) ∧
        mapGet o "a" = some (.Str "*ast.Self") ∧
        ∀ g ∈ [("a", Node.Other "*ast.Self"), ("b", Node.Function ["p"] [])],
          g ≠ ("a", Node.Other "*ast.Self") →
          ∃ v, mapGet o g.1 = some v ∧
            funcs 1 g.2 ((rootCtx "main.libsonnet" (fun _ _ => none)).withLocals []) = .ok v :=
  funcs_placeholder_entry (rootCtx "main.libsonnet" (fun _ _ => none)) "*ast.Self" "a"
    [("a", .Other "*ast.Self"), ("b", .Function ["p"] [])] [] 1
    (by decide) (by simp)
    (by
      intro g hg hne
      simp only [List.mem_cons, List.mem_singleton, List.not_mem_nil, or_false] at hg
      rcases hg with rfl | rfl
      · exact absurd rfl hne
      · exact ⟨.Function ["p"], rfl⟩)

/-! ## Contexts with the same lookups -/

/-- The walk reads a context through its file, its VM and its lookups only. -/
theorem funcs_ctx_congr (fuel : Nat) : ∀ (node : Node) (c₁ c₂ : Ctx),
    c₁.file = c₂.file → c₁.vm = c₂.vm →
    (∀ k, mapGet c₁.locals k = mapGet c₂.locals k) →
    funcs fuel node c₁ = funcs fuel node c₂ := by
  induction fuel with
  | zero => intro node c₁ c₂ _ _ _; rfl
  | succ n ih =>
    intro node c₁ c₂ hfile hvm hget
    have hwith : ∀ (binds : List (String × Node)) (body : Node),
        funcs n body (c₁.withLocals binds) = funcs n body (c₂.withLocals binds) := by
      intro binds body
      refine ih body (c₁.withLocals binds) (c₂.withLocals binds) hfile hvm ?_
      intro k
      rw [mapGet_withLocals, mapGet_withLocals, hget k]
    cases node with
    | Local binds body =>
      rw [funcs_local, funcs_local]
      exact hwith binds body
    | DesugaredObject fields locals =>
      have hwalk : (fun body => funcs n body (c₁.withLocals locals))
          = (fun body => funcs n body (c₂.withLocals locals)) :=
        funext (hwith locals)
      rw [funcs, funcs, hwalk]
    | Function required optional =>
      rw [funcs_function, funcs_function]
    | Import file =>
      rw [funcs, funcs, hfile, hvm]
      cases hv : c₂.vm c₂.file file with
      | none => rfl
      | some res =>
        obtain ⟨imported, path⟩ := res
        exact ih imported (c₁.withFile path) (c₂.withFile path) rfl hvm hget
    | Var id =>
      rw [funcs, funcs, hget id]
      cases hv : mapGet c₂.locals id with
      | none => rfl
      | some v => exact ih v c₁ c₂ hfile hvm hget
    | Index target index =>
      cases target with
      | Var parentId =>
        rw [funcs, funcs, hget parentId]
        cases hv : mapGet c₂.locals parentId with
        | none => rfl
        | some p =>
          cases index with
          | LiteralString value =>
            cases hf : field p value with
            | nil => simp only [hf]
            | panic => simp only [hf]
            | node ref =>
              simp only [hf]
              exact ih ref c₁ c₂ hfile hvm hget
          | _ => rfl
      | _ => simp [funcs]
    | LiteralString value =>
      rw [funcs_literal, funcs_literal]
    | Other typeName =>
      rw [funcs_other, funcs_other]

/-- Extending a context with no binds changes no lookup. -/
theorem funcs_withLocals_nil (fuel : Nat) (node : Node) (ctx : Ctx) :
    funcs fuel node (ctx.withLocals []) = funcs fuel node ctx := by
  refine funcs_ctx_congr fuel node (ctx.withLocals []) ctx rfl rfl ?_
  intro k
  rw [mapGet_withLocals]
  rfl

theorem mem_of_mem_mapKeys {α : Type} (m : List (String × α)) (k : String)
    (h : k ∈ mapKeys m) : ∃ v, (k, v) ∈ m := by
  simp only [mapKeys, List.mem_map] at h
  obtain ⟨⟨k', v⟩, hmem, rfl⟩ := h
  exact ⟨v, hmem⟩

/-- C17: for every context `ctx` that binds `x` to an object with no locals
and pairwise distinct field names, and every field name `f` of that object, if
the walk of the variable `x` returns a map `ns`, then, with the same fuel, the
walk of `x.f` returns the value `ns` holds under `f`. -/
theorem funcs_index_agrees_with_var (ctx : Ctx) (x f : String)
    (fields : List (String × Node)) (fuel : Nat) (ns : List (String × Value))
    (hx : mapGet ctx.locals x = some (.DesugaredObject (litFields fields) []))
    (hnd : (mapKeys fields).Nodup) (hf : f ∈ mapKeys fields)
    (hv : funcs fuel (.Var x) ctx = .ok (.Map ns)) :
    ∃ v, mapGet ns f = some v ∧
      funcs fuel (.Index (.Var x) (.LiteralString f)) ctx = .ok v := by
  cases fuel with
  | zero => simp [funcs] at hv
  | succ n =>
    rw [funcs_var n x ctx _ hx] at hv
    obtain ⟨m, o, hn, ho, hl⟩ := funcs_object_ok n (litFields fields) [] ctx _ hv
    subst hn
    cases ho
    obtain ⟨body, hbody⟩ := mem_of_mem_mapKeys fields f hf
    have hrev : (mapKeys fields.reverse).Nodup := by
      rw [mapKeys_reverse]
      exact List.nodup_reverse.2 hnd
    have hlast : mapGet fields.reverse f = some body :=
      mapGet_of_mem_nodup fields.reverse f body hrev (List.mem_reverse.2 hbody)
    have hfirst : field (.DesugaredObject (litFields fields) []) f = .node body := by
      rw [field, fieldLoop_lit, mapGet_of_mem_nodup fields f body hnd hbody]
    have h := mapGet_fieldsLoop _ fields [] ns hl f
    rw [hlast] at h
    obtain ⟨v, hw, hg⟩ := h
    refine ⟨v, hg, ?_⟩
    rw [funcs_index_found (m + 1) x f ctx _ body hx hfirst]
    rw [funcs_withLocals_nil] at hw
    exact funcs_succ _ _ _ _ hw (by simp)

/-- C17, at `x` bound to `{ g: function(a) 0, h: function(b) 0 }` and `h`. -/
theorem funcs_index_agrees_with_var_witness :
    ∃ v, mapGet [("g", Value.Function ["a"]), ("h", Value.Function ["b"])] "h" = some v ∧
      funcs 3 (.Index (.Var "x") (.LiteralString "h"))
        (Ctx.mk "main.libsonnet" (fun _ _ => none)
          [("x", .DesugaredObject
            (litFields [("g", .Function ["a"] []), ("h", .Function ["b"] [])]) [])])
        = .ok v :=
  funcs_index_agrees_with_var
    (Ctx.mk "main.libsonnet" (fun _ _ => none)
      [("x", .DesugaredObject
        (litFields [("g", .Function ["a"] []), ("h", .Function ["b"] [])]) [])])
    "x" "h" [("g", .Function ["a"] []), ("h", .Function ["b"] [])] 3
    [("g", .Function ["a"]), ("h", .Function ["b"])]
    rfl (by decide) (by decide) rfl

/-! ## Fields of one name -/

/-- The map built by the loop from the empty map has one entry for each
distinct field name. -/
theorem length_fieldsLoop (walk : Node → Res Value) (fields : List (String × Node))
    (o : List (String × Value)) (h : fieldsLoop walk (litFields fields) [] = .ok o) :
    o.length = (mapKeys fields).dedup.length := by
  have hnd : (mapKeys o).Nodup := nodup_mapKeys_fieldsLoop _ fields [] o h (by simp [mapKeys])
  have hmem : ∀ k, k ∈ mapKeys o ↔ k ∈ mapKeys fields := by
    intro k
    rw [mem_mapKeys_fieldsLoop _ fields [] o h k]
    simp [mapKeys]
  have hperm : (mapKeys o).Perm (mapKeys fields).dedup :=
    (List.perm_ext_iff_of_nodup hnd (List.nodup_dedup _)).2
      (fun k => by rw [hmem k, List.mem_dedup])
  have := hperm.length_eq
  simpa [mapKeys] using this

/-- C18: for every object, whenever its walk returns, it returns a map that
holds, under a name `f`, the value of the walk of the body of the last field
named `f` (a later field overwrites an earlier one of the same name, and the
map has as many entries as there are distinct field names), whereas `field`
returns the body of the first field named `f`.  (An object whose walk returns
has literal strings for field names: `sf` lists them with the field bodies.) -/
theorem funcs_last_field_field_first (fuel : Nat) (ctx : Ctx)
    (fields : List (Node × Node)) (locals : List (String × Node)) (v : Value)
    (h : funcs fuel (.DesugaredObject fields locals) ctx = .ok v) :
    ∃ sf n o, fields = litFields sf ∧ fuel = n + 1 ∧ v = .Map o ∧
      o.length = (mapKeys sf).dedup.length ∧
      (∀ pre post f body, sf = pre ++ (f, body) :: post → f ∉ mapKeys post →
        ∃ w, mapGet o f = some w ∧ funcs n body (ctx.withLocals locals) = .ok w) ∧
      (∀ pre post f body, sf = pre ++ (f, body) :: post → f ∉ mapKeys pre →
        field (.DesugaredObject fields locals) f = .node body) := by
  obtain ⟨n, o, hn, hv, hl⟩ := funcs_object_ok fuel fields locals ctx v h
  obtain ⟨sf, rfl⟩ := fieldsLoop_ok_lit _ fields [] o hl
  refine ⟨sf, n, o, rfl, hn, hv, length_fieldsLoop _ sf o hl, ?_, ?_⟩
  · intro pre post f body hfields hpost
    have hget := mapGet_fieldsLoop _ sf [] o hl f
    rw [hfields, mapGet_reverse_of_last pre post f body hpost] at hget
    obtain ⟨w, hw, hg⟩ := hget
    exact ⟨w, hg, hw⟩
  · intro pre post f body hfields hpre
    rw [field, fieldLoop_lit, hfields, mapGet_first pre post f body hpre]

/-- C18, at `{ ["a"]: function(x) 0, ["b"]: function(z) 0, ["a"]: function(y) 0 }`:
the map holds `Function [y]` under `a` and has two entries, and `field` returns
the body `function(x) 0`. -/
theorem funcs_last_field_field_first_witness :
    funcs 2 (.DesugaredObject (litFields
        [("a", .Function ["x"] []), ("b", .Function ["z"] []), ("a", .Function ["y"] [])]) [])
        (rootCtx "main.libsonnet" (fun _ _ => none))
        = .ok (.Map [("a", .Function ["y"]), ("b", .Function ["z"])]) ∧
      field (.DesugaredObject (litFields
        [("a", .Function ["x"] []), ("b", .Function ["z"] []), ("a", .Function ["y"] [])]) [])
        "a" = .node (.Function ["x"] []) ∧
      ∃ sf n o,
        litFields [("a", Node.Function ["x"] []), ("b", Node.Function ["z"] []),
          ("a", Node.Function ["y"] [])] = litFields sf ∧
        2 = n + 1 ∧
        Value.Map [("a", .Function ["y"]), ("b", .Function ["z"])] = .Map o ∧
        o.length = (mapKeys sf).dedup.length ∧
        (∀ pre post f body, sf = pre ++ (f, body) :: post → f ∉ mapKeys post →
          ∃ w, mapGet o f = some w ∧
            funcs n body ((rootCtx "main.libsonnet" (fun _ _ => none)).withLocals []) = .ok w) ∧
        (∀ pre post f body, sf = pre ++ (f, body) :: post → f ∉ mapKeys pre →
          field (.DesugaredObject (litFields
            [("a", .Function ["x"] []), ("b", .Function ["z"] []), ("a", .Function ["y"] [])])
            []) f = .node body) :=
  ⟨rfl, rfl, funcs_last_field_field_first 2 (rootCtx "main.libsonnet" (fun _ _ => none))
    (litFields
      [("a", .Function ["x"] []), ("b", .Function ["z"] []), ("a", .Function ["y"] [])])
    [] _ rfl⟩

end Tkdoc
